import Mathlib

/-
  Verification of the adaptive integration driver of `src/acb_calc/integrate.c`
  (functions `quad_simple` and `acb_calc_integrate`).

  The ball/magnitude substrate (`acb_t`/`mag_t` operations) and the high-order
  Gauss-Legendre rule (`acb_calc_integrate_gl_auto_deg`) are external to the
  repository; following the specification (sections 2, 4.1, 6) they are modelled
  by an abstract operation record `Ops` plus, where a claim needs it, soundness
  contracts (`SoundOps`, `GlSound`, `FSound`) and a concrete exact ball
  substrate over the rationals (`qops`) used to exhibit witnesses.
-/

namespace ArbInt

/-- External ball/magnitude substrate, specification section 4.1.  `B` is the
type of complex balls (`acb_t`), `M` of error magnitudes (`mag_t`).  The third
argument of `add`, `sub`, `mul` is the working precision, which the substrate
may use for rounding; every other operation is precision-free, as in Arb. -/
structure Ops (B M : Type) where
  add : B → B → ℤ → B
  sub : B → B → ℤ → B
  mul : B → B → ℤ → B
  mul2exp : B → ℤ → B
  zero : B
  containsZero : B → Bool
  isFinite : B → Bool
  isReal : B → Bool
  zeroImag : B → B
  getMagLower : B → M
  radHypot : B → M
  getRealMag : B → M
  getImagMag : B → M
  addErrorReal : B → M → B
  addErrorImag : B → M → B
  magMax : M → M → M
  magMul2exp : M → ℤ → M
  magCmp : M → M → Ordering

variable {B M : Type} {A : Type}

/-- Value `delta = (b-a)/2` computed by `quad_simple` (integrate.c lines 26-28):
`acb_sub(delta, b, a, prec); acb_mul_2exp_si(delta, delta, -1)`. -/
def qs_delta (ops : Ops B M) (a b : B) (prec : ℤ) : B :=
  ops.mul2exp (ops.sub b a prec) (-1)

/-- Value `mid = (a+b)/2` computed by `quad_simple` (integrate.c lines 30-32). -/
def qs_mid (ops : Ops B M) (a b : B) (prec : ℤ) : B :=
  ops.mul2exp (ops.add a b prec) (-1)

/-- Value `wide = mid +- [delta]` computed by `quad_simple` (integrate.c lines
34-39): a copy of `mid` whose real and imaginary radii are inflated by the
magnitudes of the real and imaginary parts of `delta`. -/
def qs_wide (ops : Ops B M) (a b : B) (prec : ℤ) : B :=
  ops.addErrorImag
    (ops.addErrorReal (qs_mid ops a b prec) (ops.getRealMag (qs_delta ops a b prec)))
    (ops.getImagMag (qs_delta ops a b prec))

/-- The direct enclosure rule `quad_simple` (integrate.c lines 14-50).  The
integrand `f` receives the evaluation ball, the opaque parameter, the
derivative order (always 0 here, line 42) and the working precision.
Result: `f(wide) * delta * 2` (lines 42-44). -/
def quad_simple (ops : Ops B M) (f : B → A → ℤ → ℤ → B) (param : A)
    (a b : B) (prec : ℤ) : B :=
  ops.mul2exp (ops.mul (f (qs_wide ops a b prec) param 0 prec) (qs_delta ops a b prec) prec) 1

/-- Default resolution for `depth_limit` (integrate.c lines 73-75):
`if (depth_limit <= 0) depth_limit = 2 * prec; depth_limit = FLINT_MAX(depth_limit, 1)`. -/
def resolve_depth_limit (depth_limit prec : ℤ) : ℤ :=
  max (if depth_limit ≤ 0 then 2 * prec else depth_limit) 1

/-- Default resolution for `eval_limit` (integrate.c lines 77-79). -/
def resolve_eval_limit (eval_limit prec : ℤ) : ℤ :=
  max (if eval_limit ≤ 0 then 1000 * prec else eval_limit) 1

/-- Clamping of `goal` (integrate.c line 81): `goal = FLINT_MAX(goal, 0)`. -/
def resolve_goal (goal : ℤ) : ℤ :=
  max goal 0

/-- Default resolution for `deg_limit` (integrate.c lines 82-83):
`if (deg_limit <= 0) deg_limit = 0.5 * goal + 10`.  The C expression computes
`0.5 * goal + 10` in double precision and truncates the result back to a
signed integer; with `goal` already clamped nonnegative (line 81) and within
the exactly representable range this equals the floor `goal / 2 + 10`,
which is how it is modelled here. -/
def resolve_deg_limit (deg_limit goal : ℤ) : ℤ :=
  if deg_limit ≤ 0 then goal / 2 + 10 else deg_limit

/-- Calling context of one `acb_calc_integrate` run: substrate operations,
integrand, opaque parameter, high-order rule oracle (modelled from the spec:
`acb_calc_integrate_gl_auto_deg` is external; it receives the two endpoint
balls, the current tolerance, the degree limit, the flags and the precision
and returns an evaluation count together with a result ball, the count being
positive exactly on success), and the resolved numeric parameters. -/
structure Ctx (B M : Type) (A : Type) where
  ops : Ops B M
  f : B → A → ℤ → ℤ → B
  param : A
  gl : B → B → M → ℤ → ℤ → ℤ → ℕ × B
  goal : ℤ
  deg_limit : ℤ
  eval_limit : ℤ
  depth_limit : ℤ
  flags : ℤ
  prec : ℤ

/-- Mutable state of the main loop of `acb_calc_integrate` (integrate.c lines
60-64 and 90-103): the three parallel stacks `as`, `bs`, `vs` (modelled as
total maps from indices; only indices below `depth` are meaningful), the
current stack height `depth`, its high-water mark `depth_max`, the evaluation
counter `eval`, the `stopping` flag, the adaptive tolerance `new_tol` and the
running sum `s`. -/
structure IntState (B M : Type) where
  as : ℕ → B
  bs : ℕ → B
  vs : ℕ → B
  depth : ℕ
  depth_max : ℕ
  eval : ℤ
  stopping : Bool
  new_tol : M
  s : B

/-- Pointwise update of a stack map. -/
def upd (g : ℕ → B) (i : ℕ) (x : B) : ℕ → B :=
  fun j => if j = i then x else g j

/-- Condition of the evaluation-budget check at the top of each loop iteration
(integrate.c line 107): `stopping == 0 && eval >= eval_limit - 1`. -/
def budgetTrip (c : Ctx B M A) (st : IntState B M) : Prop :=
  st.stopping = false ∧ c.eval_limit - 1 ≤ st.eval

/-- Accept test on the top interval (integrate.c lines 115-120): the magnitude
`hypot` of the radii of the top value is below `new_tol`, or the difference of
the endpoints (`acb_sub(u, as + depth - 1, bs + depth - 1, prec)`, line 117)
contains zero, or `stopping` is set. -/
def acceptTest (c : Ctx B M A) (st : IntState B M) : Prop :=
  c.ops.magCmp (c.ops.radHypot (st.vs (st.depth - 1))) st.new_tol = Ordering.lt
    ∨ c.ops.containsZero (c.ops.sub (st.as (st.depth - 1)) (st.bs (st.depth - 1)) c.prec) = true
    ∨ st.stopping = true

/-- The call to the high-order rule on the top interval (integrate.c lines
133-134). -/
def glCall (c : Ctx B M A) (st : IntState B M) : ℕ × B :=
  c.gl (st.as (st.depth - 1)) (st.bs (st.depth - 1)) st.new_tol c.deg_limit c.flags c.prec

/-- Condition under which the high-order attempt succeeds and its result is
accepted (integrate.c lines 128 and 138): the top value is finite and the
rule returned a positive evaluation count. -/
def glTest (c : Ctx B M A) (st : IntState B M) : Prop :=
  c.ops.isFinite (st.vs (st.depth - 1)) = true ∧ 0 < (glCall c st).1

/-- Condition of the depth-budget check (integrate.c line 155):
`depth >= depth_limit - 1`. -/
def depthTrip (c : Ctx B M A) (st : IntState B M) : Prop :=
  c.depth_limit - 1 ≤ (st.depth : ℤ)

instance (c : Ctx B M A) (st : IntState B M) : Decidable (budgetTrip c st) := by
  unfold budgetTrip; infer_instance

instance (c : Ctx B M A) (st : IntState B M) : Decidable (acceptTest c st) := by
  unfold acceptTest; infer_instance

instance (c : Ctx B M A) (st : IntState B M) : Decidable (glTest c st) := by
  unfold glTest; infer_instance

instance (c : Ctx B M A) (st : IntState B M) : Decidable (depthTrip c st) := by
  unfold depthTrip; infer_instance

/-- Value contributed by a successful high-order step: the rule's result,
with its imaginary part zeroed when the old top value was finite and real
(`real_error`, integrate.c lines 131 and 140-141). -/
def glVal (c : Ctx B M A) (st : IntState B M) : B :=
  if c.ops.isFinite (st.vs (st.depth - 1)) && c.ops.isReal (st.vs (st.depth - 1))
  then c.ops.zeroImag (glCall c st).2
  else (glCall c st).2

/-- Successful high-order step (integrate.c lines 128-152): the (possibly
imaginary-zeroed) rule result is added to `s`, `new_tol` is refreshed from
it, `eval` is incremented by the rule's evaluation count and the interval is
popped. -/
def glAccept (c : Ctx B M A) (st : IntState B M) : IntState B M :=
  { st with
    s := c.ops.add st.s (glVal c st) c.prec
    new_tol := c.ops.magMax st.new_tol
      (c.ops.magMul2exp (c.ops.getMagLower (glVal c st)) (-c.goal))
    eval := st.eval + ((glCall c st).1 : ℤ)
    depth := st.depth - 1 }

/-- Ball midpoint used by the bisection (integrate.c lines 166-167):
`(as[depth-1] + bs[depth-1]) / 2`. -/
def bisect_mid (c : Ctx B M A) (st : IntState B M) : B :=
  c.ops.mul2exp (c.ops.add (st.as (st.depth - 1)) (st.bs (st.depth - 1)) c.prec) (-1)

/-- Direct-rule enclosure of the left child `[a, mid]` (integrate.c line 171). -/
def bisect_vL (c : Ctx B M A) (st : IntState B M) : B :=
  quad_simple c.ops c.f c.param (st.as (st.depth - 1)) (bisect_mid c st) c.prec

/-- Direct-rule enclosure of the right child `[mid, b]` (integrate.c line 172). -/
def bisect_vR (c : Ctx B M A) (st : IntState B M) : B :=
  quad_simple c.ops c.f c.param (bisect_mid c st) (st.bs (st.depth - 1)) c.prec

/-- Swap condition of the bisection (integrate.c lines 175-180): the combined
radius magnitude of the left child's value is strictly larger than the right
child's. -/
def bisect_sw (c : Ctx B M A) (st : IntState B M) : Prop :=
  c.ops.magCmp (c.ops.radHypot (bisect_vL c st)) (c.ops.radHypot (bisect_vR c st))
    = Ordering.gt

instance (c : Ctx B M A) (st : IntState B M) : Decidable (bisect_sw c st) := by
  unfold bisect_sw; infer_instance

/-- Bisection step (integrate.c lines 163-193).  Slot `depth-1` becomes the
left child `[a, mid]`, slot `depth` the right child `[mid, b]`; both get
direct-rule enclosures, `eval` grows by 2; if the left child's combined
radius is strictly larger (`mag_cmp > 0`, line 180) the two records are
swapped so the left child occupies the top slot `depth`; `new_tol` is
refreshed from the value in slot `depth` after the swap (lines 187-190);
then `depth` is incremented and `depth_max` updated. -/
def bisect (c : Ctx B M A) (st : IntState B M) : IntState B M :=
  let d := st.depth
  let aL := st.as (d - 1)
  let bR := st.bs (d - 1)
  let mid := bisect_mid c st
  let vL := bisect_vL c st
  let vR := bisect_vR c st
  let sw := bisect_sw c st
  let a1 := if sw then mid else aL
  let b1 := if sw then bR else mid
  let v1 := if sw then vR else vL
  let a2 := if sw then aL else mid
  let b2 := if sw then mid else bR
  let v2 := if sw then vL else vR
  { st with
    as := upd (upd st.as (d - 1) a1) d a2
    bs := upd (upd st.bs (d - 1) b1) d b2
    vs := upd (upd st.vs (d - 1) v1) d v2
    new_tol := c.ops.magMax st.new_tol (c.ops.magMul2exp (c.ops.getMagLower v2) (-c.goal))
    eval := st.eval + 2
    depth := d + 1
    depth_max := max (d + 1) st.depth_max }

/-- One iteration of the main loop `while (depth >= 1)` (integrate.c lines
105-194), written as a total step function that fixes terminal states
(`depth = 0`).  The branch order matches the C control flow: budget check,
accept test, high-order attempt, depth check, bisection.  Note that when the
high-order rule declines (`feval = 0`) the C code still executes
`eval += feval`, which is a no-op, so merging the decline case into the
fall-through is state-identical. -/
def step (c : Ctx B M A) (st : IntState B M) : IntState B M :=
  if st.depth = 0 then st
  else if budgetTrip c st then { st with stopping := true }
  else if acceptTest c st then
    { st with s := c.ops.add st.s (st.vs (st.depth - 1)) c.prec, depth := st.depth - 1 }
  else if glTest c st then glAccept c st
  else if depthTrip c st then { st with stopping := true }
  else bisect c st

/-- Upper bound on the number of remaining loop iterations, used to drive the
loop to its terminal state: once `stopping` is set only accepts remain
(at most `depth` of them); before that, every iteration either sets
`stopping`, pops, or pays at least one third of `3 * (eval_limit - eval)`. -/
def fuel (eval_limit : ℤ) (st : IntState B M) : ℕ :=
  if st.stopping = true then st.depth
  else st.depth + 3 * (eval_limit - st.eval).toNat + 1

/-- The main loop run to its terminal state. -/
def run (c : Ctx B M A) (st : IntState B M) : IntState B M :=
  (step c)^[fuel c.eval_limit st] st

/-- Initial state (integrate.c lines 86-103): one interval `[a, b]` with its
direct-rule enclosure, `eval = 1`, `depth = depth_max = 1`, `stopping` clear,
`s = 0`, and the adaptive tolerance seeded as
`max(tol, lower-bound-magnitude(v0) * 2^(-goal))` (lines 98-101).  Unused
stack slots hold zero balls (`_acb_vec_init`). -/
def init_state (c : Ctx B M A) (a b : B) (tol : M) : IntState B M :=
  let v0 := quad_simple c.ops c.f c.param a b c.prec
  { as := fun i => if i = 0 then a else c.ops.zero
    bs := fun i => if i = 0 then b else c.ops.zero
    vs := fun i => if i = 0 then v0 else c.ops.zero
    depth := 1
    depth_max := 1
    eval := 1
    stopping := false
    new_tol := c.ops.magMax tol (c.ops.magMul2exp (c.ops.getMagLower v0) (-c.goal))
    s := c.ops.zero }

/-- Context with the entry-time default resolution of integrate.c lines 73-83
applied, in source order: `depth_limit`, `eval_limit`, `goal`, `deg_limit`
(the latter computed from the already clamped `goal`). -/
def mkCtx (ops : Ops B M) (f : B → A → ℤ → ℤ → B) (param : A)
    (gl : B → B → M → ℤ → ℤ → ℤ → ℕ × B)
    (goal deg_limit eval_limit depth_limit flags prec : ℤ) : Ctx B M A :=
  { ops := ops, f := f, param := param, gl := gl
    goal := resolve_goal goal
    deg_limit := resolve_deg_limit deg_limit (resolve_goal goal)
    eval_limit := resolve_eval_limit eval_limit prec
    depth_limit := resolve_depth_limit depth_limit prec
    flags := flags
    prec := prec }

/-- Final loop state of a call to `acb_calc_integrate` with the given raw
(unresolved) parameters. -/
def integrate_state (ops : Ops B M) (f : B → A → ℤ → ℤ → B) (param : A)
    (gl : B → B → M → ℤ → ℤ → ℤ → ℕ × B) (a b : B) (goal : ℤ) (tol : M)
    (deg_limit eval_limit depth_limit flags prec : ℤ) : IntState B M :=
  run (mkCtx ops f param gl goal deg_limit eval_limit depth_limit flags prec)
    (init_state (mkCtx ops f param gl goal deg_limit eval_limit depth_limit flags prec) a b tol)

/-- The integration driver `acb_calc_integrate` (integrate.c lines 52-213):
resolve defaults, initialize, run the main loop, return the accumulated sum
(`acb_set(res, s)`, line 202). -/
def acb_calc_integrate (ops : Ops B M) (f : B → A → ℤ → ℤ → B) (param : A)
    (gl : B → B → M → ℤ → ℤ → ℤ → ℕ × B) (a b : B) (goal : ℤ) (tol : M)
    (deg_limit eval_limit depth_limit flags prec : ℤ) : B :=
  (integrate_state ops f param gl a b goal tol deg_limit eval_limit depth_limit flags prec).s

/-- The top interval is accepted by the current iteration: its value is added
to the running sum and it is popped with `depth` decremented (integrate.c
lines 119-125). -/
def accepts (c : Ctx B M A) (st : IntState B M) : Prop :=
  step c st = { st with s := c.ops.add st.s (st.vs (st.depth - 1)) c.prec, depth := st.depth - 1 }

/-- Modelled from the spec (sections 3, 4.1): soundness contract of the
external ball/magnitude substrate, relative to a containment relation
`mem z u` ("the complex number `z` lies in the ball `u`") and a real-valued
reading `nu` of magnitudes.  Every operation never loses a contained point;
magnitude extraction never understates. -/
structure SoundOps (ops : Ops B M) (mem : ℂ → B → Prop) (nu : M → ℝ) : Prop where
  zero_mem : mem 0 ops.zero
  add_mem : ∀ (prec : ℤ) (z w : ℂ) (u v : B),
    mem z u → mem w v → mem (z + w) (ops.add u v prec)
  sub_mem : ∀ (prec : ℤ) (z w : ℂ) (u v : B),
    mem z u → mem w v → mem (z - w) (ops.sub u v prec)
  mul_mem : ∀ (prec : ℤ) (z w : ℂ) (u v : B),
    mem z u → mem w v → mem (z * w) (ops.mul u v prec)
  mul2exp_mem : ∀ (e : ℤ) (z : ℂ) (u : B), mem z u → mem (z * 2 ^ e) (ops.mul2exp u e)
  containsZero_mem : ∀ u : B, mem 0 u → ops.containsZero u = true
  isReal_mem : ∀ (u : B) (z : ℂ), ops.isReal u = true → mem z u → z.im = 0
  zeroImag_mem : ∀ (u : B) (z : ℂ), mem z u → z.im = 0 → mem z (ops.zeroImag u)
  getRealMag_le : ∀ (z : ℂ) (u : B), mem z u → |z.re| ≤ nu (ops.getRealMag u)
  getImagMag_le : ∀ (z : ℂ) (u : B), mem z u → |z.im| ≤ nu (ops.getImagMag u)
  addErrorReal_mem : ∀ (z : ℂ) (u : B) (m : M) (e : ℝ),
    mem z u → |e| ≤ nu m → mem (z + (e : ℂ)) (ops.addErrorReal u m)
  addErrorImag_mem : ∀ (z : ℂ) (u : B) (m : M) (e : ℝ),
    mem z u → |e| ≤ nu m → mem (z + (e : ℂ) * Complex.I) (ops.addErrorImag u m)

/-- Modelled from the spec (sections 1, 4.2): `I x y` is the true value of the
integral of the pointwise function `F` from `x` to `y` along the straight
segment.  Only two facts about genuine integrals are used by the driver:
splitting at the exact midpoint, and the mean-value enclosure (if every value
of `F` on the segment lies in the convex closed region described by a ball,
then the integral is the segment length times a point of that region). -/
structure IntegralOf (mem : ℂ → B → Prop) (F : ℂ → ℂ) (I : ℂ → ℂ → ℂ) : Prop where
  split_mid : ∀ x y : ℂ, I x y = I x ((x + y) / 2) + I ((x + y) / 2) y
  mean_value : ∀ (x y : ℂ) (u : B),
    (∀ t : ℝ, 0 ≤ t → t ≤ 1 → mem (F (x + (t : ℂ) * (y - x))) u) →
    ∃ w : ℂ, mem w u ∧ I x y = (y - x) * w

/-- Modelled from the spec (sections 2, 4.3, 6): contract of the external
high-order rule.  Whenever it reports success (positive evaluation count) its
result ball encloses the true integral over the given interval, for every
choice of true endpoints inside the endpoint balls. -/
def GlSound (mem : ℂ → B → Prop) (I : ℂ → ℂ → ℂ)
    (gl : B → B → M → ℤ → ℤ → ℤ → ℕ × B) : Prop :=
  ∀ (u v : B) (tol : M) (dl fl pr : ℤ),
    0 < (gl u v tol dl fl pr).1 →
    ∀ x y : ℂ, mem x u → mem y v → mem (I x y) ((gl u v tol dl fl pr).2)

/-- Contract of a sound integrand oracle (specification section 6): called at
derivative order 0, it returns a ball containing the true value of `F` at
every point of the input ball. -/
def FSound (mem : ℂ → B → Prop) (F : ℂ → ℂ) (f : B → A → ℤ → ℤ → B)
    (param : A) (prec : ℤ) : Prop :=
  ∀ (u : B) (z : ℂ), mem z u → mem (F z) (f u param 0 prec)

/-- Soundness invariant of the main loop: the running sum `s` contains some
`sigma`, each live stack slot `i < depth` carries chosen true endpoints
`x i`, `y i` inside its endpoint balls with its value ball enclosing the true
integral over them, and `sigma` plus the live true integrals equals the total
true integral. -/
def SInv (mem : ℂ → B → Prop) (I : ℂ → ℂ → ℂ) (total : ℂ) (st : IntState B M) : Prop :=
  ∃ sigma : ℂ, ∃ x : ℕ → ℂ, ∃ y : ℕ → ℂ,
    mem sigma st.s ∧
    (∀ i, i < st.depth →
      mem (x i) (st.as i) ∧ mem (y i) (st.bs i) ∧ mem (I (x i) (y i)) (st.vs i)) ∧
    total = sigma + ∑ i in Finset.range st.depth, I (x i) (y i)

/-- Component of the concrete modelled substrate: a real ball with rational
midpoint and radius. -/
structure RBall where
  m : ℚ
  r : ℚ
deriving DecidableEq

/-- Component of the concrete modelled substrate: a complex ball as a pair of
real balls. -/
structure QBall where
  re : RBall
  im : RBall
deriving DecidableEq

/-- Containment in a concrete real ball. -/
def rmem (x : ℝ) (u : RBall) : Prop :=
  |x - (u.m : ℝ)| ≤ (u.r : ℝ)

/-- Containment in a concrete complex ball. -/
def qmem (z : ℂ) (u : QBall) : Prop :=
  rmem z.re u.re ∧ rmem z.im u.im

/-- Exact real-ball addition. -/
def radd (u v : RBall) : RBall := ⟨u.m + v.m, u.r + v.r⟩

/-- Exact real-ball subtraction. -/
def rsub (u v : RBall) : RBall := ⟨u.m - v.m, u.r + v.r⟩

/-- Exact real-ball multiplication with the standard radius bound. -/
def rmul (u v : RBall) : RBall :=
  ⟨u.m * v.m, |u.m| * v.r + |v.m| * u.r + u.r * v.r⟩

/-- Exact real-ball scaling by a power of two. -/
def rscale (u : RBall) (e : ℤ) : RBall := ⟨u.m * 2 ^ e, u.r * 2 ^ e⟩

/-- Exact complex-ball addition. -/
def qadd (u v : QBall) : QBall := ⟨radd u.re v.re, radd u.im v.im⟩

/-- Exact complex-ball subtraction. -/
def qsub (u v : QBall) : QBall := ⟨rsub u.re v.re, rsub u.im v.im⟩

/-- Exact complex-ball multiplication, componentwise as in `acb_mul`. -/
def qmul (u v : QBall) : QBall :=
  ⟨rsub (rmul u.re v.re) (rmul u.im v.im), radd (rmul u.re v.im) (rmul u.im v.re)⟩

/-- Exact complex-ball scaling by a power of two. -/
def qscale (u : QBall) (e : ℤ) : QBall := ⟨rscale u.re e, rscale u.im e⟩

/-- The exact zero ball. -/
def qzero : QBall := ⟨⟨0, 0⟩, ⟨0, 0⟩⟩

/-- Three-way comparison of rational magnitudes. -/
def qcmp (x y : ℚ) : Ordering :=
  if x < y then Ordering.lt else if x = y then Ordering.eq else Ordering.gt

/-- Modelled from the spec (section 4.1): a concrete instance of the external
ball/magnitude substrate, with exact rational ball arithmetic (the working
precision is ignored, i.e. infinite), magnitudes as rationals, and sound
over-approximations for the magnitude extractions (`radHypot` uses the sum of
the radii, an upper bound for the true hypot; `getMagLower` uses the lower
bound obtained from the real part alone). -/
def qops : Ops QBall ℚ where
  add u v _ := qadd u v
  sub u v _ := qsub u v
  mul u v _ := qmul u v
  mul2exp := qscale
  zero := qzero
  containsZero u := decide (|u.re.m| ≤ u.re.r ∧ |u.im.m| ≤ u.im.r)
  isFinite _ := true
  isReal u := decide (u.im.m = 0 ∧ u.im.r = 0)
  zeroImag u := ⟨u.re, ⟨0, 0⟩⟩
  getMagLower u := max 0 (|u.re.m| - u.re.r)
  radHypot u := u.re.r + u.im.r
  getRealMag u := |u.re.m| + u.re.r
  getImagMag u := |u.im.m| + u.im.r
  addErrorReal u m := ⟨⟨u.re.m, u.re.r + m⟩, u.im⟩
  addErrorImag u m := ⟨u.re, ⟨u.im.m, u.im.r + m⟩⟩
  magMax := max
  magMul2exp m e := m * 2 ^ e
  magCmp := qcmp

/-- Real-valued reading of concrete magnitudes. -/
def qnu (m : ℚ) : ℝ := (m : ℝ)

/- ### Branch lemmas for the loop body -/

theorem step_depth_zero (c : Ctx B M A) (st : IntState B M) (h : st.depth = 0) :
    step c st = st := by
  simp [step, h]

theorem step_budget (c : Ctx B M A) (st : IntState B M) (h0 : st.depth ≠ 0)
    (h1 : budgetTrip c st) :
    step c st = { st with stopping := true } := by
  simp [step, h0, h1]

theorem step_accept (c : Ctx B M A) (st : IntState B M) (h0 : st.depth ≠ 0)
    (h1 : ¬ budgetTrip c st) (h2 : acceptTest c st) :
    step c st =
      { st with s := c.ops.add st.s (st.vs (st.depth - 1)) c.prec, depth := st.depth - 1 } := by
  simp [step, h0, h1, h2]

theorem step_gl (c : Ctx B M A) (st : IntState B M) (h0 : st.depth ≠ 0)
    (h1 : ¬ budgetTrip c st) (h2 : ¬ acceptTest c st) (h3 : glTest c st) :
    step c st = glAccept c st := by
  simp [step, h0, h1, h2, h3]

theorem step_depth_trip (c : Ctx B M A) (st : IntState B M) (h0 : st.depth ≠ 0)
    (h1 : ¬ budgetTrip c st) (h2 : ¬ acceptTest c st) (h3 : ¬ glTest c st)
    (h4 : depthTrip c st) :
    step c st = { st with stopping := true } := by
  simp [step, h0, h1, h2, h3, h4]

theorem step_bisect (c : Ctx B M A) (st : IntState B M) (h0 : st.depth ≠ 0)
    (h1 : ¬ budgetTrip c st) (h2 : ¬ acceptTest c st) (h3 : ¬ glTest c st)
    (h4 : ¬ depthTrip c st) :
    step c st = bisect c st := by
  simp [step, h0, h1, h2, h3, h4]

theorem not_stopping_of_not_accept (c : Ctx B M A) (st : IntState B M)
    (h2 : ¬ acceptTest c st) : st.stopping = false := by
  rcases Bool.eq_false_or_eq_true st.stopping with h | h
  · exact absurd (Or.inr (Or.inr h)) h2
  · exact h

/- ### Termination measure -/

theorem fuel_step_lt (c : Ctx B M A) (st : IntState B M) (h0 : st.depth ≠ 0) :
    fuel c.eval_limit (step c st) < fuel c.eval_limit st := by
  by_cases h1 : budgetTrip c st
  · rw [step_budget c st h0 h1]
    rcases h1 with ⟨hs, _⟩
    simp [fuel, hs]
    omega
  · by_cases h2 : acceptTest c st
    · rw [step_accept c st h0 h1 h2]
      rcases Bool.eq_false_or_eq_true st.stopping with hs | hs <;> simp [fuel, hs] <;> omega
    · have hs : st.stopping = false := not_stopping_of_not_accept c st h2
      have he : st.eval < c.eval_limit - 1 := by
        by_contra hcon
        exact h1 ⟨hs, by omega⟩
      by_cases h3 : glTest c st
      · rw [step_gl c st h0 h1 h2 h3]
        have hg : 0 < (glCall c st).1 := h3.2
        simp [glAccept, fuel, hs]
        omega
      · by_cases h4 : depthTrip c st
        · rw [step_depth_trip c st h0 h1 h2 h3 h4]
          simp [fuel, hs]
          omega
        · rw [step_bisect c st h0 h1 h2 h3 h4]
          simp [bisect, fuel, hs]
          omega

theorem iterate_fixed (c : Ctx B M A) (st : IntState B M) (h : st.depth = 0) :
    ∀ n, (step c)^[n] st = st := by
  intro n
  induction n with
  | zero => rfl
  | succ n ih => rw [Function.iterate_succ_apply, step_depth_zero c st h, ih]

theorem fuel_pos_of_depth_ne_zero (c : Ctx B M A) (st : IntState B M) (h : st.depth ≠ 0) :
    1 ≤ fuel c.eval_limit st := by
  simp only [fuel]
  split <;> omega

theorem iterate_depth_zero (c : Ctx B M A) :
    ∀ (k : ℕ) (st : IntState B M), fuel c.eval_limit st ≤ k → ((step c)^[k] st).depth = 0 := by
  intro k
  induction k with
  | zero =>
    intro st hk
    by_cases h : st.depth = 0
    · simpa using h
    · exact absurd hk (by have := fuel_pos_of_depth_ne_zero c st h; omega)
  | succ k ih =>
    intro st hk
    by_cases h : st.depth = 0
    · rw [iterate_fixed c st h]; exact h
    · rw [Function.iterate_succ_apply]
      exact ih (step c st) (by have := fuel_step_lt c st h; omega)

theorem run_depth_zero (c : Ctx B M A) (st : IntState B M) : (run c st).depth = 0 :=
  iterate_depth_zero c _ st le_rfl

/- ### Stopping mode -/

theorem stopping_persists_step (c : Ctx B M A) (st : IntState B M) (h : st.stopping = true) :
    (step c st).stopping = true := by
  by_cases h0 : st.depth = 0
  · rw [step_depth_zero c st h0]; exact h
  · rw [step_accept c st h0 (fun hb => by simp [hb.1] at h) (Or.inr (Or.inr h))]
    simpa using h

theorem step_stopping_accept (c : Ctx B M A) (st : IntState B M)
    (h : st.stopping = true) (h0 : st.depth ≠ 0) :
    step c st =
      { st with s := c.ops.add st.s (st.vs (st.depth - 1)) c.prec, depth := st.depth - 1 } :=
  step_accept c st h0 (fun hb => by simp [hb.1] at h) (Or.inr (Or.inr h))

theorem stopping_drains_aux (c : Ctx B M A) :
    ∀ (k : ℕ) (st : IntState B M), st.stopping = true → st.depth = k →
      ((step c)^[k] st).depth = 0 := by
  intro k
  induction k with
  | zero => intro st _ hd; simpa using hd
  | succ k ih =>
    intro st hs hd
    rw [Function.iterate_succ_apply, step_stopping_accept c st hs (by omega)]
    exact ih _ (by simpa using hs) (by simp; omega)

/- ### Depth invariant -/

theorem depth_invariant_step (c : Ctx B M A) (st : IntState B M)
    (h : (st.depth : ℤ) ≤ max 1 (c.depth_limit - 1)) :
    ((step c st).depth : ℤ) ≤ max 1 (c.depth_limit - 1) := by
  by_cases h0 : st.depth = 0
  · rw [step_depth_zero c st h0]; exact h
  · by_cases h1 : budgetTrip c st
    · rw [step_budget c st h0 h1]; simpa using h
    · by_cases h2 : acceptTest c st
      · rw [step_accept c st h0 h1 h2]
        exact le_trans (by simp) h
      · by_cases h3 : glTest c st
        · rw [step_gl c st h0 h1 h2 h3]
          exact le_trans (by simp [glAccept]) h
        · by_cases h4 : depthTrip c st
          · rw [step_depth_trip c st h0 h1 h2 h3 h4]; simpa using h
          · rw [step_bisect c st h0 h1 h2 h3 h4]
            have h5 : ¬ (c.depth_limit - 1 ≤ (st.depth : ℤ)) := h4
            calc ((bisect c st).depth : ℤ) = (st.depth : ℤ) + 1 := by simp [bisect]
              _ ≤ c.depth_limit - 1 := by omega
              _ ≤ max 1 (c.depth_limit - 1) := le_max_right _ _

theorem depth_invariant_iter (c : Ctx B M A) (st : IntState B M)
    (h : (st.depth : ℤ) ≤ max 1 (c.depth_limit - 1)) (n : ℕ) :
    ((((step c)^[n]) st).depth : ℤ) ≤ max 1 (c.depth_limit - 1) := by
  induction n with
  | zero => simpa using h
  | succ n ih =>
    rw [Function.iterate_succ_apply']
    exact depth_invariant_step c _ ih

/- ### Resolution bounds -/

theorem resolve_depth_limit_pos (depth_limit prec : ℤ) :
    1 ≤ resolve_depth_limit depth_limit prec :=
  le_max_right _ _

theorem resolve_eval_limit_pos (eval_limit prec : ℤ) :
    1 ≤ resolve_eval_limit eval_limit prec :=
  le_max_right _ _

/- ### Evaluation counter -/

theorem eval_step_char (c : Ctx B M A) (st : IntState B M) :
    (step c st).eval = st.eval ∨
      (st.eval ≤ c.eval_limit - 2 ∧
        ((step c st).eval = st.eval + 2 ∨
          (step c st).eval = st.eval + ((glCall c st).1 : ℤ))) := by
  by_cases h0 : st.depth = 0
  · rw [step_depth_zero c st h0]; exact Or.inl rfl
  · by_cases h1 : budgetTrip c st
    · rw [step_budget c st h0 h1]; exact Or.inl rfl
    · by_cases h2 : acceptTest c st
      · rw [step_accept c st h0 h1 h2]; exact Or.inl rfl
      · have hs : st.stopping = false := not_stopping_of_not_accept c st h2
        have he : st.eval ≤ c.eval_limit - 2 := by
          by_contra hcon
          exact h1 ⟨hs, by omega⟩
        by_cases h3 : glTest c st
        · rw [step_gl c st h0 h1 h2 h3]
          exact Or.inr ⟨he, Or.inr (by simp [glAccept])⟩
        · by_cases h4 : depthTrip c st
          · rw [step_depth_trip c st h0 h1 h2 h3 h4]; exact Or.inl rfl
          · rw [step_bisect c st h0 h1 h2 h3 h4]
            exact Or.inr ⟨he, Or.inl (by simp [bisect])⟩

/-- C2: on every input (including integrands that always return non-finite
balls, since the integrand and the oracle are universally quantified inside
the context `c`), the main loop terminates.  Conjuncts: the stopping flag,
once set, is never cleared by a step; with stopping set, every iteration on a
non-empty stack accepts the top interval without touching the integrand or the
high-order oracle (the step is literally independent of them); with stopping
set the loop reaches `depth = 0` in exactly `depth` further iterations; and
from any state the loop reaches `depth = 0` within `fuel` iterations. -/
theorem C2_termination (c : Ctx B M A) :
    (∀ st : IntState B M, st.stopping = true → (step c st).stopping = true) ∧
    (∀ st : IntState B M, st.stopping = true → st.depth ≠ 0 →
      step c st =
        { st with s := c.ops.add st.s (st.vs (st.depth - 1)) c.prec,
                  depth := st.depth - 1 } ∧
      ∀ (f2 : B → A → ℤ → ℤ → B) (gl2 : B → B → M → ℤ → ℤ → ℤ → ℕ × B),
        step { c with f := f2, gl := gl2 } st = step c st) ∧
    (∀ st : IntState B M, st.stopping = true → ((step c)^[st.depth] st).depth = 0) ∧
    (∀ st : IntState B M, ((step c)^[fuel c.eval_limit st] st).depth = 0) := by
  refine ⟨stopping_persists_step c, ?_, ?_, fun st => iterate_depth_zero c _ st le_rfl⟩
  · intro st hs h0
    refine ⟨step_stopping_accept c st hs h0, fun f2 gl2 => ?_⟩
    rw [step_stopping_accept _ st hs h0, step_stopping_accept c st hs h0]
  · intro st hs
    exact stopping_drains_aux c st.depth st hs rfl

/-- Concrete context used by witnesses: integrand constantly the zero ball,
high-order oracle that always declines. -/
def c2ctx : Ctx QBall ℚ Unit :=
  mkCtx qops (fun _ _ _ _ => qzero) () (fun _ _ _ _ _ _ => (0, qzero)) 0 0 0 0 0 64

/-- Concrete mid-run state with the stopping flag set and two stacked
intervals. -/
def c2st : IntState QBall ℚ :=
  { as := fun _ => qzero, bs := fun _ => qzero, vs := fun _ => qzero,
    depth := 2, depth_max := 2, eval := 1, stopping := true, new_tol := 0, s := qzero }

theorem C2_termination_witness :
    c2st.stopping = true ∧ ((step c2ctx)^[c2st.depth] c2st).depth = 0 :=
  ⟨rfl, (C2_termination c2ctx).2.2.1 c2st rfl⟩

/-- C3: throughout every run of `acb_calc_integrate` (context `c` with
defaults resolved, start state `st0`), the stack height never exceeds the
resolved `depth_limit`; `eval` starts at 1 and, at each iteration, either
stays unchanged or was at most `eval_limit - 2` before growing by exactly one
in-flight step (2 for a bisection, or the count returned by one high-order
rule call); stopping is set at the top of an iteration whenever
`eval >= eval_limit - 1`, and whenever `depth >= depth_limit - 1` with a
bisection otherwise pending (all earlier branches declined). -/
theorem C3_budget_invariants (c : Ctx B M A) (st0 : IntState B M)
    (ops : Ops B M) (f : B → A → ℤ → ℤ → B) (param : A)
    (gl : B → B → M → ℤ → ℤ → ℤ → ℕ × B) (a b : B) (goal : ℤ) (tol : M)
    (deg_limit eval_limit depth_limit flags prec : ℤ)
    (hc : c = mkCtx ops f param gl goal deg_limit eval_limit depth_limit flags prec)
    (hst : st0 = init_state c a b tol) :
    (∀ n : ℕ, (((step c)^[n] st0).depth : ℤ) ≤ c.depth_limit) ∧
    st0.eval = 1 ∧
    (∀ n : ℕ, ((step c)^[n + 1] st0).eval = ((step c)^[n] st0).eval ∨
      (((step c)^[n] st0).eval ≤ c.eval_limit - 2 ∧
        (((step c)^[n + 1] st0).eval = ((step c)^[n] st0).eval + 2 ∨
          ((step c)^[n + 1] st0).eval
            = ((step c)^[n] st0).eval + ((glCall c ((step c)^[n] st0)).1 : ℤ)))) ∧
    (∀ st : IntState B M, st.depth ≠ 0 → st.stopping = false →
      c.eval_limit - 1 ≤ st.eval → step c st = { st with stopping := true }) ∧
    (∀ st : IntState B M, st.depth ≠ 0 → ¬ budgetTrip c st → ¬ acceptTest c st →
      ¬ glTest c st → c.depth_limit - 1 ≤ (st.depth : ℤ) →
      step c st = { st with stopping := true }) := by
  have hdl : 1 ≤ c.depth_limit := by rw [hc]; exact resolve_depth_limit_pos _ _
  refine ⟨?_, by rw [hst]; rfl, ?_, ?_, ?_⟩
  · intro n
    have h := depth_invariant_iter c st0 ?_ n
    · have : max 1 (c.depth_limit - 1) ≤ c.depth_limit := max_le (by omega) (by omega)
      omega
    · rw [hst]
      exact le_trans (by simp [init_state]) (le_max_left _ _)
  · intro n
    rw [Function.iterate_succ_apply']
    exact eval_step_char c _
  · intro st h0 hsf he
    exact step_budget c st h0 ⟨hsf, he⟩
  · intro st h0 h1 h2 h3 h4
    exact step_depth_trip c st h0 h1 h2 h3 h4

/-- Concrete mid-run state over the evaluation budget, used to witness the
budget trigger of C3. -/
def c3st : IntState QBall ℚ :=
  { as := fun _ => qzero, bs := fun _ => qzero, vs := fun _ => qzero,
    depth := 1, depth_max := 1, eval := 100000, stopping := false, new_tol := 0, s := qzero }

theorem C3_budget_invariants_witness :
    c3st.depth ≠ 0 ∧ c3st.stopping = false ∧ c2ctx.eval_limit - 1 ≤ c3st.eval ∧
    step c2ctx c3st = { c3st with stopping := true } :=
  ⟨by decide, rfl, by decide,
    (C3_budget_invariants c2ctx (init_state c2ctx qzero qzero 0) qops
        (fun _ _ _ _ => qzero) () (fun _ _ _ _ _ _ => (0, qzero)) qzero qzero 0 0
        0 0 0 0 64 rfl rfl).2.2.2.1 c3st (by decide) rfl (by decide)⟩

/-- C10: stack accesses stay within capacity.  After default resolution the
depth limit is at least 1 for every input (including non-positive working
precision); along every run the invariant `depth <= max 1 (depth_limit - 1)`
holds; the bisection branch is taken only when `depth <= depth_limit - 2`
(so the writes at index `depth` are below `depth_limit`); and when
`depth_limit <= 2` no step ever increases the stack height, i.e. no bisection
occurs. -/
theorem C10_stack_safety (c : Ctx B M A) (st0 : IntState B M)
    (ops : Ops B M) (f : B → A → ℤ → ℤ → B) (param : A)
    (gl : B → B → M → ℤ → ℤ → ℤ → ℕ × B) (a b : B) (goal : ℤ) (tol : M)
    (deg_limit eval_limit depth_limit flags prec : ℤ)
    (_hc : c = mkCtx ops f param gl goal deg_limit eval_limit depth_limit flags prec)
    (hst : st0 = init_state c a b tol) :
    (∀ dl2 pr2 : ℤ, 1 ≤ resolve_depth_limit dl2 pr2) ∧
    (∀ n : ℕ, (((step c)^[n] st0).depth : ℤ) ≤ max 1 (c.depth_limit - 1)) ∧
    (∀ st : IntState B M, st.depth ≠ 0 → ¬ budgetTrip c st → ¬ acceptTest c st →
      ¬ glTest c st → ¬ depthTrip c st →
      (st.depth : ℤ) ≤ c.depth_limit - 2 ∧ step c st = bisect c st) ∧
    (c.depth_limit ≤ 2 → ∀ st : IntState B M, (step c st).depth ≤ st.depth) := by
  refine ⟨fun dl2 pr2 => resolve_depth_limit_pos dl2 pr2, ?_, ?_, ?_⟩
  · intro n
    refine depth_invariant_iter c st0 ?_ n
    rw [hst]
    exact le_trans (by simp [init_state]) (le_max_left _ _)
  · intro st h0 h1 h2 h3 h4
    have h5 : ¬ (c.depth_limit - 1 ≤ (st.depth : ℤ)) := h4
    exact ⟨by omega, step_bisect c st h0 h1 h2 h3 h4⟩
  · intro hdl st
    by_cases h0 : st.depth = 0
    · rw [step_depth_zero c st h0]
    · by_cases h1 : budgetTrip c st
      · rw [step_budget c st h0 h1]
      · by_cases h2 : acceptTest c st
        · rw [step_accept c st h0 h1 h2]; simp
        · by_cases h3 : glTest c st
          · rw [step_gl c st h0 h1 h2 h3]; simp [glAccept]
          · have h4 : depthTrip c st := by
              have : 1 ≤ (st.depth : ℤ) := by omega
              exact le_trans (by omega) this
            rw [step_depth_trip c st h0 h1 h2 h3 h4]

theorem C10_stack_safety_witness :
    1 ≤ resolve_depth_limit 0 (-5) :=
  (C10_stack_safety c2ctx (init_state c2ctx qzero qzero 0) qops
      (fun _ _ _ _ => qzero) () (fun _ _ _ _ _ _ => (0, qzero)) qzero qzero 0 0
      0 0 0 0 64 rfl rfl).1 0 (-5)

/-- C8: default resolution of the limit parameters at entry, for a genuine
(positive) working precision: non-positive `depth_limit` becomes `2 * prec`,
non-positive `eval_limit` becomes `1000 * prec`, `goal` is clamped to at
least 0, non-positive `deg_limit` becomes the double value `0.5 * goal + 10`
truncated to an integer (the floor `goal / 2 + 10` of the clamped goal), and
caller-supplied positive values are used unchanged. -/
theorem C8_default_resolution (depth_limit eval_limit deg_limit goal prec : ℤ)
    (hprec : 1 ≤ prec) :
    (depth_limit ≤ 0 → resolve_depth_limit depth_limit prec = 2 * prec) ∧
    (0 < depth_limit → resolve_depth_limit depth_limit prec = depth_limit) ∧
    (eval_limit ≤ 0 → resolve_eval_limit eval_limit prec = 1000 * prec) ∧
    (0 < eval_limit → resolve_eval_limit eval_limit prec = eval_limit) ∧
    (0 ≤ resolve_goal goal) ∧
    (0 ≤ goal → resolve_goal goal = goal) ∧
    (deg_limit ≤ 0 → resolve_deg_limit deg_limit (resolve_goal goal)
        = resolve_goal goal / 2 + 10) ∧
    (0 < deg_limit → resolve_deg_limit deg_limit (resolve_goal goal) = deg_limit) := by
  refine ⟨?_, ?_, ?_, ?_, le_max_right _ _, ?_, ?_, ?_⟩
  · intro h
    rw [resolve_depth_limit, if_pos h]
    exact max_eq_left (by omega)
  · intro h
    rw [resolve_depth_limit, if_neg (by omega)]
    exact max_eq_left (by omega)
  · intro h
    rw [resolve_eval_limit, if_pos h]
    exact max_eq_left (by omega)
  · intro h
    rw [resolve_eval_limit, if_neg (by omega)]
    exact max_eq_left (by omega)
  · intro h
    exact max_eq_left h
  · intro h
    rw [resolve_deg_limit, if_pos h]
  · intro h
    rw [resolve_deg_limit, if_neg (by omega)]

/-- C4: in every iteration of the main loop that is not a budget-check
re-entry, the top interval is accepted (its value added to `s`, the interval
popped, `depth` decremented) exactly when the combined radius magnitude of
its value compares below `new_tol`, or the ball difference of the endpoints
`b` and `a` contains zero, or stopping is set.  The source computes the
difference as `a - b` (integrate.c line 117); the hypothesis `hsym` records
that the substrate's zero-containment test does not distinguish the two
orientations, which lets the conclusion be phrased with `b - a` as the claim
does. -/
theorem C4_accept_iff (c : Ctx B M A) (st : IntState B M) (h0 : st.depth ≠ 0)
    (h1 : ¬ budgetTrip c st)
    (hsym : c.ops.containsZero (c.ops.sub (st.as (st.depth - 1)) (st.bs (st.depth - 1)) c.prec)
        = c.ops.containsZero (c.ops.sub (st.bs (st.depth - 1)) (st.as (st.depth - 1)) c.prec)) :
    accepts c st ↔
      (c.ops.magCmp (c.ops.radHypot (st.vs (st.depth - 1))) st.new_tol = Ordering.lt
        ∨ c.ops.containsZero (c.ops.sub (st.bs (st.depth - 1)) (st.as (st.depth - 1)) c.prec)
            = true
        ∨ st.stopping = true) := by
  constructor
  · intro hacc
    have hacc' : step c st =
        { st with s := c.ops.add st.s (st.vs (st.depth - 1)) c.prec,
                  depth := st.depth - 1 } := hacc
    by_cases h2 : acceptTest c st
    · rcases h2 with h | h | h
      · exact Or.inl h
      · exact Or.inr (Or.inl (by rw [← hsym]; exact h))
      · exact Or.inr (Or.inr h)
    · exfalso
      by_cases h3 : glTest c st
      · rw [step_gl c st h0 h1 h2 h3] at hacc'
        have heq := congrArg IntState.eval hacc'
        simp [glAccept] at heq
        have hg : 0 < (glCall c st).1 := h3.2
        omega
      · by_cases h4 : depthTrip c st
        · rw [step_depth_trip c st h0 h1 h2 h3 h4] at hacc'
          have heq := congrArg IntState.depth hacc'
          simp at heq
          omega
        · rw [step_bisect c st h0 h1 h2 h3 h4] at hacc'
          have heq := congrArg IntState.depth hacc'
          simp [bisect] at heq
          omega
  · intro hcond
    have h2 : acceptTest c st := by
      rcases hcond with h | h | h
      · exact Or.inl h
      · exact Or.inr (Or.inl (by rw [hsym]; exact h))
      · exact Or.inr (Or.inr h)
    exact step_accept c st h0 h1 h2

/-- Concrete mid-run state inside the budget on a degenerate interval, used
to witness the accept test of C4. -/
def c4st : IntState QBall ℚ :=
  { as := fun _ => qzero, bs := fun _ => qzero, vs := fun _ => qzero,
    depth := 1, depth_max := 1, eval := 1, stopping := false, new_tol := 0, s := qzero }

theorem C4_accept_iff_witness :
    c4st.depth ≠ 0 ∧ ¬ budgetTrip c2ctx c4st ∧
    (accepts c2ctx c4st ↔
      (c2ctx.ops.magCmp (c2ctx.ops.radHypot (c4st.vs (c4st.depth - 1))) c4st.new_tol
          = Ordering.lt
        ∨ c2ctx.ops.containsZero
            (c2ctx.ops.sub (c4st.bs (c4st.depth - 1)) (c4st.as (c4st.depth - 1)) c2ctx.prec)
            = true
        ∨ c4st.stopping = true)) :=
  ⟨by decide, by decide, C4_accept_iff c2ctx c4st (by decide) (by decide) rfl⟩

/-- Comparison of a rational magnitude with itself never reports `lt`. -/
theorem qcmp_self_ne_lt (x : ℚ) : qcmp x x ≠ Ordering.lt := by
  simp [qcmp]

/-- Comparison of `max x y` against `x` never reports `lt`. -/
theorem qcmp_max_ne_lt (x y : ℚ) : qcmp (max x y) x ≠ Ordering.lt := by
  rw [qcmp, if_neg (not_lt.2 (le_max_left x y))]
  split <;> simp

/-- C5: within one call the adaptive tolerance is monotone.  Conjuncts: the
seed is `max(tol, lower-bound-magnitude(v0) * 2^(-goal))`; every step either
leaves `new_tol` unchanged or replaces it by `magMax new_tol m` for some
magnitude `m`; consequently (for a substrate whose comparison is reflexive
and whose `magMax` is an upper bound of its first argument, hypotheses
`hrefl` and `hmax`) the value of `new_tol` never compares strictly below its
predecessor between successive iterations. -/
theorem C5_new_tol_monotone (c : Ctx B M A) (a b : B) (tol : M)
    (hrefl : ∀ x : M, c.ops.magCmp x x ≠ Ordering.lt)
    (hmax : ∀ x y : M, c.ops.magCmp (c.ops.magMax x y) x ≠ Ordering.lt) :
    (init_state c a b tol).new_tol
        = c.ops.magMax tol (c.ops.magMul2exp
            (c.ops.getMagLower (quad_simple c.ops c.f c.param a b c.prec)) (-c.goal)) ∧
    (∀ st : IntState B M, (step c st).new_tol = st.new_tol ∨
      ∃ m : M, (step c st).new_tol = c.ops.magMax st.new_tol m) ∧
    (∀ (st : IntState B M) (n : ℕ),
      c.ops.magCmp (((step c)^[n + 1] st).new_tol) (((step c)^[n] st).new_tol)
        ≠ Ordering.lt) := by
  have hstep : ∀ st : IntState B M, (step c st).new_tol = st.new_tol ∨
      ∃ m : M, (step c st).new_tol = c.ops.magMax st.new_tol m := by
    intro st
    by_cases h0 : st.depth = 0
    · rw [step_depth_zero c st h0]; exact Or.inl rfl
    · by_cases h1 : budgetTrip c st
      · rw [step_budget c st h0 h1]; exact Or.inl rfl
      · by_cases h2 : acceptTest c st
        · rw [step_accept c st h0 h1 h2]; exact Or.inl rfl
        · by_cases h3 : glTest c st
          · rw [step_gl c st h0 h1 h2 h3]
            exact Or.inr
              ⟨c.ops.magMul2exp (c.ops.getMagLower (glVal c st)) (-c.goal), rfl⟩
          · by_cases h4 : depthTrip c st
            · rw [step_depth_trip c st h0 h1 h2 h3 h4]; exact Or.inl rfl
            · rw [step_bisect c st h0 h1 h2 h3 h4]
              exact Or.inr
                ⟨c.ops.magMul2exp
                    (c.ops.getMagLower
                      (if bisect_sw c st then bisect_vL c st else bisect_vR c st))
                    (-c.goal), rfl⟩
  refine ⟨rfl, hstep, ?_⟩
  intro st n
  rw [Function.iterate_succ_apply']
  rcases hstep ((step c)^[n] st) with h | ⟨m, h⟩
  · rw [h]; exact hrefl _
  · rw [h]; exact hmax _ m

theorem C5_new_tol_monotone_witness :
    c2ctx.ops.magCmp (((step c2ctx)^[1] c4st).new_tol) (((step c2ctx)^[0] c4st).new_tol)
      ≠ Ordering.lt :=
  (C5_new_tol_monotone c2ctx qzero qzero 0 qcmp_self_ne_lt qcmp_max_ne_lt).2.2 c4st 0

/-- C7: whenever the bisection branch is reached (all earlier branches
declined), the step performs `bisect`; the two children occupy slots
`depth-1` (left, `[a, mid]`) and `depth` (right, `[mid, b]`) with their
direct-rule enclosures, except that when the left child's combined radius
magnitude compares strictly greater than the right child's the two records
are swapped, so the left child occupies the top slot; consequently the next
interval popped (index `depth` of the new state, i.e. the new top) is the
child with the larger error radius. -/
theorem C7_bisection_order (c : Ctx B M A) (st : IntState B M) (h0 : st.depth ≠ 0)
    (h1 : ¬ budgetTrip c st) (h2 : ¬ acceptTest c st) (h3 : ¬ glTest c st)
    (h4 : ¬ depthTrip c st) :
    step c st = bisect c st ∧
    (bisect c st).depth = st.depth + 1 ∧
    ((bisect c st).vs ((bisect c st).depth - 1)
        = if bisect_sw c st then bisect_vL c st else bisect_vR c st) ∧
    ((bisect c st).vs ((bisect c st).depth - 2)
        = if bisect_sw c st then bisect_vR c st else bisect_vL c st) ∧
    (bisect_sw c st →
      (bisect c st).as st.depth = st.as (st.depth - 1) ∧
      (bisect c st).bs st.depth = bisect_mid c st ∧
      (bisect c st).vs st.depth = bisect_vL c st ∧
      (bisect c st).as (st.depth - 1) = bisect_mid c st ∧
      (bisect c st).bs (st.depth - 1) = st.bs (st.depth - 1) ∧
      (bisect c st).vs (st.depth - 1) = bisect_vR c st) := by
  have hne : st.depth - 1 ≠ st.depth := by omega
  refine ⟨step_bisect c st h0 h1 h2 h3 h4, by simp [bisect], ?_, ?_, ?_⟩
  · simp [bisect, upd]
  · have hidx : st.depth + 1 - 2 = st.depth - 1 := by omega
    simp only [bisect]
    simp only [hidx]
    simp [upd, hne]
  · intro hsw
    simp [bisect, upd, hne, hsw]

/-- Exact point ball with rational real part. -/
def qpt (x : ℚ) : QBall := ⟨⟨x, 0⟩, ⟨0, 0⟩⟩

/-- Scaling a real ball by `2^(-1)` and multiplying the result back by `2`
cancels exactly around a ball product (exact rational substrate). -/
theorem rmul_rscale_half (w d : RBall) :
    rscale (rmul w (rscale d (-1))) 1 = rmul w d := by
  have h1 : ((2:ℚ)) ^ ((-1) : ℤ) = 1 / 2 := by
    rw [zpow_neg, zpow_one]; norm_num
  have h2 : ((2:ℚ)) ^ ((1) : ℤ) = 2 := zpow_one 2
  simp only [rmul, rscale, h1, h2, RBall.mk.injEq, abs_mul]
  constructor
  · ring
  · rw [abs_of_nonneg (by norm_num : (0:ℚ) ≤ 1 / 2)]
    ring

/-- Exact cancellation `(w * ((b - a) * 2^(-1))) * 2 = w * (b - a)` for
complex balls of the concrete substrate, i.e. over this substrate
`quad_simple`'s result `f(wide) * delta * 2` equals `f(wide) * (b - a)`. -/
theorem qmul_delta_double (w d : QBall) :
    qscale (qmul w (qscale d (-1))) 1 = qmul w d := by
  have h1 : ((2:ℚ)) ^ ((-1) : ℤ) = 1 / 2 := by
    rw [zpow_neg, zpow_one]; norm_num
  have h2 : ((2:ℚ)) ^ ((1) : ℤ) = 2 := zpow_one 2
  have h3 : |(1 / 2 : ℚ)| = 1 / 2 := abs_of_nonneg (by norm_num)
  simp only [qmul, qscale, rscale, rsub, radd, rmul, h1, h2, abs_mul, h3,
    QBall.mk.injEq, RBall.mk.injEq]
  refine ⟨⟨by ring, by ring⟩, by ring, by ring⟩

/-- C6: `quad_simple` computes `delta = (b-a)/2` and `mid = (a+b)/2`, builds
`wide` as `mid` with its real and imaginary radii inflated by the magnitudes
of `delta`'s parts, evaluates the integrand once (with derivative order 0, at
`wide`), and returns `f(wide)` multiplied by `delta` and then doubled.  The
result depends on `f` only through that single application (so exactly one
evaluation is performed, and there is no failure branch: the function is
total by construction).  Over the exact concrete substrate the result equals
`f(wide) * (b - a)`. -/
theorem C6_quad_simple (ops : Ops B M) (f : B → A → ℤ → ℤ → B) (param : A)
    (a b : B) (prec : ℤ) :
    quad_simple ops f param a b prec
        = ops.mul2exp
            (ops.mul (f (qs_wide ops a b prec) param 0 prec) (qs_delta ops a b prec) prec)
            1 ∧
    qs_delta ops a b prec = ops.mul2exp (ops.sub b a prec) (-1) ∧
    qs_mid ops a b prec = ops.mul2exp (ops.add a b prec) (-1) ∧
    qs_wide ops a b prec
        = ops.addErrorImag
            (ops.addErrorReal (qs_mid ops a b prec)
              (ops.getRealMag (qs_delta ops a b prec)))
            (ops.getImagMag (qs_delta ops a b prec)) ∧
    (∀ g : B → A → ℤ → ℤ → B,
      f (qs_wide ops a b prec) param 0 prec = g (qs_wide ops a b prec) param 0 prec →
      quad_simple ops f param a b prec = quad_simple ops g param a b prec) ∧
    (∀ (w u v : QBall) (prec2 : ℤ),
      qscale (qmul w (qs_delta qops u v prec2)) 1
        = qmul w (qsub v u)) := by
  refine ⟨rfl, rfl, rfl, rfl, ?_, ?_⟩
  · intro g hg
    unfold quad_simple
    rw [hg]
  · intro w u v prec2
    exact qmul_delta_double w (qsub v u)

/-- Constant integrand used by the C6 witness. -/
def c6f : QBall → Unit → ℤ → ℤ → QBall := fun _ _ _ _ => qpt 1

/-- Integrand used by the C6 witness, syntactically different from `c6f` but
equal to it at every input. -/
def c6g : QBall → Unit → ℤ → ℤ → QBall := fun u _ _ _ => ⟨⟨1, u.im.r * 0⟩, ⟨0, 0⟩⟩

theorem C6_quad_simple_witness :
    c6f (qs_wide qops (qpt 0) (qpt 1) 64) () 0 64
        = c6g (qs_wide qops (qpt 0) (qpt 1) 64) () 0 64 ∧
    quad_simple qops c6f () (qpt 0) (qpt 1) 64
        = quad_simple qops c6g () (qpt 0) (qpt 1) 64 :=
  ⟨by simp [c6f, c6g, qpt],
    (C6_quad_simple qops c6f () (qpt 0) (qpt 1) 64).2.2.2.2.1 c6g
      (by simp [c6f, c6g, qpt])⟩

/-- Integrand used by the bisection witness: the constant exact ball 1. -/
def c7f : QBall → Unit → ℤ → ℤ → QBall := fun _ _ _ _ => qpt 1

/-- Context of the bisection witness. -/
def c7ctx : Ctx QBall ℚ Unit :=
  mkCtx qops c7f () (fun _ _ _ _ _ _ => (0, qzero)) 0 0 0 0 0 64

/-- State of the bisection witness: top interval from `0 +- 1/4` to the exact
point 1, top value too wide to accept, tolerance zero. -/
def c7st : IntState QBall ℚ :=
  { as := fun _ => ⟨⟨0, 1/4⟩, ⟨0, 0⟩⟩, bs := fun _ => qpt 1,
    vs := fun _ => ⟨⟨0, 5⟩, ⟨0, 0⟩⟩,
    depth := 1, depth_max := 1, eval := 1, stopping := false, new_tol := 0, s := qzero }

theorem c7_not_accept : ¬ acceptTest c7ctx c7st := by
  intro h
  rcases h with h | h | h
  · rw [show c7ctx.ops.magCmp = qcmp from rfl] at h
    norm_num [c7st, c7ctx, mkCtx, qops, qcmp] at h
    exact absurd h (by decide)
  · norm_num [c7st, c7ctx, mkCtx, qops, qsub, rsub, qpt] at h
  · exact absurd h (by norm_num [c7st])

theorem c7_sw : bisect_sw c7ctx c7st := by
  show qcmp _ _ = Ordering.gt
  norm_num [bisect_vL, bisect_vR, bisect_mid, quad_simple, qs_delta, qs_mid, qs_wide,
    c7ctx, c7st, c7f, mkCtx, qops, qadd, qsub, qmul, qscale, radd, rsub, rmul, rscale,
    qpt, qcmp]

theorem C7_bisection_order_witness :
    c7st.depth ≠ 0 ∧ ¬ budgetTrip c7ctx c7st ∧ ¬ acceptTest c7ctx c7st ∧
    ¬ glTest c7ctx c7st ∧ ¬ depthTrip c7ctx c7st ∧ bisect_sw c7ctx c7st ∧
    ((bisect c7ctx c7st).as c7st.depth = c7st.as (c7st.depth - 1) ∧
      (bisect c7ctx c7st).bs c7st.depth = bisect_mid c7ctx c7st ∧
      (bisect c7ctx c7st).vs c7st.depth = bisect_vL c7ctx c7st ∧
      (bisect c7ctx c7st).as (c7st.depth - 1) = bisect_mid c7ctx c7st ∧
      (bisect c7ctx c7st).bs (c7st.depth - 1) = c7st.bs (c7st.depth - 1) ∧
      (bisect c7ctx c7st).vs (c7st.depth - 1) = bisect_vR c7ctx c7st) :=
  ⟨by decide, by decide, c7_not_accept, by decide, by decide, c7_sw,
    (C7_bisection_order c7ctx c7st (by decide) (by decide) c7_not_accept (by decide)
      (by decide)).2.2.2.2 c7_sw⟩

theorem C8_default_resolution_witness :
    (1 : ℤ) ≤ 64 ∧
    resolve_depth_limit 0 64 = 2 * 64 ∧
    resolve_eval_limit (-3) 64 = 1000 * 64 ∧
    resolve_deg_limit (-1) (resolve_goal 53) = resolve_goal 53 / 2 + 10 ∧
    resolve_depth_limit 5 64 = 5 :=
  ⟨by norm_num,
   (C8_default_resolution 0 (-3) (-1) 53 64 (by norm_num)).1 (by norm_num),
   (C8_default_resolution 0 (-3) (-1) 53 64 (by norm_num)).2.2.1 (by norm_num),
   (C8_default_resolution 0 (-3) (-1) 53 64 (by norm_num)).2.2.2.2.2.2.1 (by norm_num),
   (C8_default_resolution 5 (-3) (-1) 53 64 (by norm_num)).2.1 (by norm_num)⟩

/- ### Degenerate interval -/

theorem run_eq_of_iterate (c : Ctx B M A) (st : IntState B M) (n : ℕ)
    (hn : n ≤ fuel c.eval_limit st) (h : ((step c)^[n] st).depth = 0) :
    run c st = (step c)^[n] st := by
  obtain ⟨k, hk⟩ : ∃ k, fuel c.eval_limit st = k + n := ⟨fuel c.eval_limit st - n, by omega⟩
  rw [run, hk, Function.iterate_add_apply]
  exact iterate_fixed c _ h k

/-- Over the exact concrete substrate, the direct rule on a degenerate exact
interval `[a, a]` returns the exact zero ball: `delta = (a - a)/2` is the
zero ball, and multiplying any value by it gives zero midpoint and radius. -/
theorem quad_simple_degenerate (f : QBall → A → ℤ → ℤ → QBall) (param : A) (a : QBall)
    (prec : ℤ) (h1 : a.re.r = 0) (h2 : a.im.r = 0) :
    quad_simple qops f param a a prec = qzero := by
  have hd : qs_delta qops a a prec = qzero := by
    simp [qs_delta, qops, qsub, rsub, qscale, rscale, qzero, h1, h2]
  rw [quad_simple, hd]
  simp [qops, qmul, rmul, rsub, radd, qscale, rscale, qzero]

/-- Over the exact concrete substrate, the difference of an exact ball with
itself contains zero. -/
theorem contains_zero_qsub_self (a : QBall) (prec : ℤ) (h1 : a.re.r = 0)
    (h2 : a.im.r = 0) :
    qops.containsZero (qops.sub a a prec) = true := by
  simp [qops, qsub, rsub, h1, h2]

/-- C9: calling `acb_calc_integrate` (over the exact concrete substrate) with
equal exact endpoints `a == b` evaluates the integrand exactly once (the
final `eval` counter equals 1, counting the single initial direct-rule
evaluation), never bisects (`depth_max` stays 1), returns the zero-value
zero-width enclosure, and the endpoint difference indeed contains zero, which
is what makes the single initial interval acceptable on its first pop. -/
theorem C9_degenerate_interval (f : QBall → A → ℤ → ℤ → QBall) (param : A)
    (gl : QBall → QBall → ℚ → ℤ → ℤ → ℤ → ℕ × QBall) (a : QBall) (goal : ℤ)
    (tol : ℚ) (deg_limit eval_limit depth_limit flags prec : ℤ)
    (h1 : a.re.r = 0) (h2 : a.im.r = 0) :
    (integrate_state qops f param gl a a goal tol
        deg_limit eval_limit depth_limit flags prec).s = qzero ∧
    (integrate_state qops f param gl a a goal tol
        deg_limit eval_limit depth_limit flags prec).eval = 1 ∧
    (integrate_state qops f param gl a a goal tol
        deg_limit eval_limit depth_limit flags prec).depth_max = 1 ∧
    qops.containsZero (qops.sub a a prec) = true := by
  have hcz : qops.containsZero (qops.sub a a prec) = true :=
    contains_zero_qsub_self a prec h1 h2
  set c : Ctx QBall ℚ A :=
    mkCtx qops f param gl goal deg_limit eval_limit depth_limit flags prec with hc
  set st0 : IntState QBall ℚ := init_state c a a tol with hst
  have hv0 : quad_simple qops f param a a prec = qzero :=
    quad_simple_degenerate f param a prec h1 h2
  have hd0 : st0.depth = 1 := rfl
  have hzadd : qadd qzero qzero = qzero := by simp [qadd, radd, qzero]
  have hfinal : integrate_state qops f param gl a a goal tol
      deg_limit eval_limit depth_limit flags prec = run c st0 := rfl
  by_cases hb : budgetTrip c st0
  · have hstep1 : step c st0 = { st0 with stopping := true } :=
      step_budget c st0 (by rw [hd0]; exact one_ne_zero) hb
    have hstep2 : step c { st0 with stopping := true } =
        { st0 with
          stopping := true
          s := c.ops.add st0.s (st0.vs 0) c.prec
          depth := 0 } := by
      rw [step_stopping_accept c _ rfl (by rw [show ({ st0 with stopping := true } :
        IntState QBall ℚ).depth = st0.depth from rfl, hd0]; exact one_ne_zero)]
      simp [hd0]
    have hit2 : (step c)^[2] st0 =
        { st0 with
          stopping := true
          s := c.ops.add st0.s (st0.vs 0) c.prec
          depth := 0 } := by
      rw [show (2:ℕ) = 1 + 1 from rfl, Function.iterate_add_apply,
        Function.iterate_one, hstep1, hstep2]
    have hfuel : 2 ≤ fuel c.eval_limit st0 := by
      simp only [fuel, hd0]
      have : st0.stopping = false := rfl
      rw [this]
      simp
    have hrun : run c st0 =
        { st0 with
          stopping := true
          s := c.ops.add st0.s (st0.vs 0) c.prec
          depth := 0 } := by
      rw [run_eq_of_iterate c st0 2 hfuel (by rw [hit2]), hit2]
    rw [hfinal, hrun]
    refine ⟨?_, rfl, rfl, hcz⟩
    show c.ops.add st0.s (st0.vs 0) c.prec = qzero
    show qadd st0.s (st0.vs 0) = qzero
    show qadd qzero (quad_simple qops f param a a prec) = qzero
    rw [hv0, hzadd]
  · have hacc : acceptTest c st0 := Or.inr (Or.inl hcz)
    have hstep1 : step c st0 =
        { st0 with s := c.ops.add st0.s (st0.vs 0) c.prec, depth := 0 } := by
      rw [step_accept c st0 (by rw [hd0]; exact one_ne_zero) hb hacc]
      simp [hd0]
    have hit1 : (step c)^[1] st0 =
        { st0 with s := c.ops.add st0.s (st0.vs 0) c.prec, depth := 0 } := by
      rw [Function.iterate_one, hstep1]
    have hrun : run c st0 =
        { st0 with s := c.ops.add st0.s (st0.vs 0) c.prec, depth := 0 } := by
      rw [run_eq_of_iterate c st0 1
        (fuel_pos_of_depth_ne_zero c st0 (by rw [hd0]; exact one_ne_zero))
        (by rw [hit1]), hit1]
    rw [hfinal, hrun]
    refine ⟨?_, rfl, rfl, hcz⟩
    show qadd qzero (quad_simple qops f param a a prec) = qzero
    rw [hv0, hzadd]

theorem C9_degenerate_interval_witness :
    (qpt 2).re.r = 0 ∧ (qpt 2).im.r = 0 ∧
    ((integrate_state qops c6f () (fun _ _ _ _ _ _ => (0, qzero)) (qpt 2) (qpt 2)
        10 0 0 0 0 0 64).s = qzero ∧
      (integrate_state qops c6f () (fun _ _ _ _ _ _ => (0, qzero)) (qpt 2) (qpt 2)
        10 0 0 0 0 0 64).eval = 1 ∧
      (integrate_state qops c6f () (fun _ _ _ _ _ _ => (0, qzero)) (qpt 2) (qpt 2)
        10 0 0 0 0 0 64).depth_max = 1 ∧
      qops.containsZero (qops.sub (qpt 2) (qpt 2) 64) = true) :=
  ⟨rfl, rfl,
    C9_degenerate_interval c6f () (fun _ _ _ _ _ _ => (0, qzero)) (qpt 2) 10 0 0 0 0 0 64
      rfl rfl⟩

/- ### Soundness of the direct rule -/

/-- Under the substrate contract, the `wide` ball built by `quad_simple`
contains every point of the straight segment between true endpoints chosen in
the endpoint balls. -/
theorem qs_wide_covers (ops : Ops B M) (mem : ℂ → B → Prop) (nu : M → ℝ)
    (S : SoundOps ops mem nu) (aB bB : B) (prec : ℤ) (x y : ℂ)
    (hx : mem x aB) (hy : mem y bB) :
    ∀ t : ℝ, 0 ≤ t → t ≤ 1 →
      mem (x + (t : ℂ) * (y - x)) (qs_wide ops aB bB prec) := by
  have hδ : mem ((y - x) * 2 ^ (-1 : ℤ)) (qs_delta ops aB bB prec) :=
    S.mul2exp_mem (-1) _ _ (S.sub_mem prec y x bB aB hy hx)
  have hm : mem ((x + y) * 2 ^ (-1 : ℤ)) (qs_mid ops aB bB prec) :=
    S.mul2exp_mem (-1) _ _ (S.add_mem prec x y aB bB hx hy)
  intro t ht0 ht1
  set ct : ℂ := ((2 * t - 1 : ℝ) : ℂ) * ((y - x) * 2 ^ (-1 : ℤ)) with hct
  have habs : |(2 * t - 1 : ℝ)| ≤ 1 := abs_le.mpr ⟨by linarith, by linarith⟩
  have hre : |ct.re| ≤ nu (ops.getRealMag (qs_delta ops aB bB prec)) := by
    rw [hct, Complex.re_ofReal_mul, abs_mul]
    calc |2 * t - 1| * |((y - x) * 2 ^ (-1 : ℤ)).re|
        ≤ 1 * |((y - x) * 2 ^ (-1 : ℤ)).re| :=
          mul_le_mul_of_nonneg_right habs (abs_nonneg _)
      _ = |((y - x) * 2 ^ (-1 : ℤ)).re| := one_mul _
      _ ≤ nu (ops.getRealMag (qs_delta ops aB bB prec)) := S.getRealMag_le _ _ hδ
  have him : |ct.im| ≤ nu (ops.getImagMag (qs_delta ops aB bB prec)) := by
    rw [hct, Complex.im_ofReal_mul, abs_mul]
    calc |2 * t - 1| * |((y - x) * 2 ^ (-1 : ℤ)).im|
        ≤ 1 * |((y - x) * 2 ^ (-1 : ℤ)).im| :=
          mul_le_mul_of_nonneg_right habs (abs_nonneg _)
      _ = |((y - x) * 2 ^ (-1 : ℤ)).im| := one_mul _
      _ ≤ nu (ops.getImagMag (qs_delta ops aB bB prec)) := S.getImagMag_le _ _ hδ
  have step1 :
      mem ((x + y) * 2 ^ (-1 : ℤ) + (ct.re : ℂ))
        (ops.addErrorReal (qs_mid ops aB bB prec)
          (ops.getRealMag (qs_delta ops aB bB prec))) :=
    S.addErrorReal_mem _ _ _ ct.re hm hre
  have step2 :
      mem ((x + y) * 2 ^ (-1 : ℤ) + (ct.re : ℂ) + (ct.im : ℂ) * Complex.I)
        (qs_wide ops aB bB prec) :=
    S.addErrorImag_mem _ _ _ ct.im step1 him
  have heq : (x + y) * 2 ^ (-1 : ℤ) + (ct.re : ℂ) + (ct.im : ℂ) * Complex.I
      = x + (t : ℂ) * (y - x) := by
    rw [add_assoc, Complex.re_add_im, hct]
    have h2 : ((2 : ℂ)) ^ (-1 : ℤ) = 1 / 2 := by
      rw [zpow_neg, zpow_one, one_div]
    rw [h2]
    push_cast
    ring
  rwa [heq] at step2

/-- Soundness of the direct rule `quad_simple`: under the substrate contract
and for a sound integrand oracle, the returned ball encloses the true
integral over the interval, for every choice of true endpoints in the
endpoint balls. -/
theorem quad_simple_sound (ops : Ops B M) (mem : ℂ → B → Prop) (nu : M → ℝ)
    (S : SoundOps ops mem nu) (F : ℂ → ℂ) (I : ℂ → ℂ → ℂ)
    (hI : IntegralOf mem F I) (f : B → A → ℤ → ℤ → B) (param : A) (prec : ℤ)
    (hf : FSound mem F f param prec) (aB bB : B) (x y : ℂ)
    (hx : mem x aB) (hy : mem y bB) :
    mem (I x y) (quad_simple ops f param aB bB prec) := by
  have hδ : mem ((y - x) * 2 ^ (-1 : ℤ)) (qs_delta ops aB bB prec) :=
    S.mul2exp_mem (-1) _ _ (S.sub_mem prec y x bB aB hy hx)
  have hfw : ∀ t : ℝ, 0 ≤ t → t ≤ 1 →
      mem (F (x + (t : ℂ) * (y - x))) (f (qs_wide ops aB bB prec) param 0 prec) :=
    fun t h0 h1 => hf _ _ (qs_wide_covers ops mem nu S aB bB prec x y hx hy t h0 h1)
  obtain ⟨w, hw, hIxy⟩ := hI.mean_value x y _ hfw
  have hmul : mem (w * ((y - x) * 2 ^ (-1 : ℤ)))
      (ops.mul (f (qs_wide ops aB bB prec) param 0 prec) (qs_delta ops aB bB prec) prec) :=
    S.mul_mem prec w _ _ _ hw hδ
  have hfin : mem ((w * ((y - x) * 2 ^ (-1 : ℤ))) * 2 ^ (1 : ℤ))
      (quad_simple ops f param aB bB prec) :=
    S.mul2exp_mem 1 _ _ hmul
  have heq : (w * ((y - x) * 2 ^ (-1 : ℤ))) * 2 ^ (1 : ℤ) = I x y := by
    rw [hIxy]
    have h2 : ((2 : ℂ)) ^ (-1 : ℤ) = 1 / 2 := by
      rw [zpow_neg, zpow_one, one_div]
    have h21 : ((2 : ℂ)) ^ (1 : ℤ) = 2 := zpow_one 2
    rw [h2, h21]
    ring
  rwa [heq] at hfin

/- ### Invariant preservation -/

theorem bisect_as_eq (c : Ctx B M A) (st : IntState B M) :
    (bisect c st).as
      = upd (upd st.as (st.depth - 1)
          (if bisect_sw c st then bisect_mid c st else st.as (st.depth - 1)))
        st.depth
        (if bisect_sw c st then st.as (st.depth - 1) else bisect_mid c st) := rfl

theorem bisect_bs_eq (c : Ctx B M A) (st : IntState B M) :
    (bisect c st).bs
      = upd (upd st.bs (st.depth - 1)
          (if bisect_sw c st then st.bs (st.depth - 1) else bisect_mid c st))
        st.depth
        (if bisect_sw c st then bisect_mid c st else st.bs (st.depth - 1)) := rfl

theorem bisect_vs_eq (c : Ctx B M A) (st : IntState B M) :
    (bisect c st).vs
      = upd (upd st.vs (st.depth - 1)
          (if bisect_sw c st then bisect_vR c st else bisect_vL c st))
        st.depth
        (if bisect_sw c st then bisect_vL c st else bisect_vR c st) := rfl

theorem SInv_accept (c : Ctx B M A) (mem : ℂ → B → Prop) (nu : M → ℝ)
    (S : SoundOps c.ops mem nu) (I : ℂ → ℂ → ℂ) (total : ℂ) (st : IntState B M)
    (h0 : st.depth ≠ 0) (hinv : SInv mem I total st) :
    SInv mem I total
      { st with s := c.ops.add st.s (st.vs (st.depth - 1)) c.prec,
                depth := st.depth - 1 } := by
  obtain ⟨σ, xf, yf, hσ, hslots, hsum⟩ := hinv
  obtain ⟨d1, hd1⟩ : ∃ d1, st.depth = d1 + 1 := ⟨st.depth - 1, by omega⟩
  have htop := hslots d1 (by omega)
  refine ⟨σ + I (xf d1) (yf d1), xf, yf, ?_, ?_, ?_⟩
  · show mem _ (c.ops.add st.s (st.vs (st.depth - 1)) c.prec)
    rw [hd1, Nat.add_sub_cancel]
    exact S.add_mem c.prec _ _ _ _ hσ htop.2.2
  · intro i hi
    have hi' : i < st.depth := by
      have h : i < st.depth - 1 := hi
      omega
    exact hslots i hi'
  · show total = σ + I (xf d1) (yf d1)
      + ∑ i in Finset.range (st.depth - 1), I (xf i) (yf i)
    rw [hsum, hd1, Nat.add_sub_cancel, Finset.sum_range_succ]
    ring

theorem SInv_gl (c : Ctx B M A) (mem : ℂ → B → Prop) (nu : M → ℝ)
    (S : SoundOps c.ops mem nu) (I : ℂ → ℂ → ℂ) (hgl : GlSound mem I c.gl)
    (total : ℂ) (st : IntState B M) (h0 : st.depth ≠ 0) (h3 : glTest c st)
    (hinv : SInv mem I total st) :
    SInv mem I total (glAccept c st) := by
  obtain ⟨σ, xf, yf, hσ, hslots, hsum⟩ := hinv
  obtain ⟨d1, hd1⟩ : ∃ d1, st.depth = d1 + 1 := ⟨st.depth - 1, by omega⟩
  have htop := hslots d1 (by omega)
  have hmemtop : mem (I (xf d1) (yf d1)) (st.vs (st.depth - 1)) := by
    rw [hd1, Nat.add_sub_cancel]; exact htop.2.2
  have hga : mem (xf d1) (st.as (st.depth - 1)) := by
    rw [hd1, Nat.add_sub_cancel]; exact htop.1
  have hgb : mem (yf d1) (st.bs (st.depth - 1)) := by
    rw [hd1, Nat.add_sub_cancel]; exact htop.2.1
  have hg : mem (I (xf d1) (yf d1)) (glCall c st).2 :=
    hgl _ _ _ _ _ _ h3.2 _ _ hga hgb
  have hval : mem (I (xf d1) (yf d1)) (glVal c st) := by
    by_cases hb : (c.ops.isFinite (st.vs (st.depth - 1))
        && c.ops.isReal (st.vs (st.depth - 1))) = true
    · have hreal : c.ops.isReal (st.vs (st.depth - 1)) = true :=
        (Bool.and_eq_true _ _).mp hb |>.2
      have him0 : (I (xf d1) (yf d1)).im = 0 := S.isReal_mem _ _ hreal hmemtop
      simp only [glVal, hb, if_true]
      exact S.zeroImag_mem _ _ hg him0
    · simp only [glVal, hb]
      simpa using hg
  refine ⟨σ + I (xf d1) (yf d1), xf, yf, ?_, ?_, ?_⟩
  · exact S.add_mem c.prec _ _ _ _ hσ hval
  · intro i hi
    have hi' : i < st.depth := by
      have h : i < st.depth - 1 := hi
      omega
    exact hslots i hi'
  · show total = σ + I (xf d1) (yf d1)
      + ∑ i in Finset.range (st.depth - 1), I (xf i) (yf i)
    rw [hsum, hd1, Nat.add_sub_cancel, Finset.sum_range_succ]
    ring

theorem SInv_bisect (c : Ctx B M A) (mem : ℂ → B → Prop) (nu : M → ℝ)
    (S : SoundOps c.ops mem nu) (F : ℂ → ℂ) (I : ℂ → ℂ → ℂ)
    (hI : IntegralOf mem F I) (hf : FSound mem F c.f c.param c.prec)
    (total : ℂ) (st : IntState B M) (h0 : st.depth ≠ 0)
    (hinv : SInv mem I total st) :
    SInv mem I total (bisect c st) := by
  obtain ⟨σ, xf, yf, hσ, hslots, hsum⟩ := hinv
  obtain ⟨d1, hd1⟩ : ∃ d1, st.depth = d1 + 1 := ⟨st.depth - 1, by omega⟩
  have htop := hslots d1 (by omega)
  set zm : ℂ := (xf d1 + yf d1) * (2 : ℂ) ^ (-1 : ℤ) with hzm_def
  have htop1 : mem (xf d1) (st.as (st.depth - 1)) := by
    rw [hd1, Nat.add_sub_cancel]; exact htop.1
  have htop2 : mem (yf d1) (st.bs (st.depth - 1)) := by
    rw [hd1, Nat.add_sub_cancel]; exact htop.2.1
  have hzm : mem zm (bisect_mid c st) :=
    S.mul2exp_mem (-1) _ _ (S.add_mem c.prec _ _ _ _ htop1 htop2)
  have hvL : mem (I (xf d1) zm) (bisect_vL c st) :=
    quad_simple_sound c.ops mem nu S F I hI c.f c.param c.prec hf _ _ _ _ htop1 hzm
  have hvR : mem (I zm (yf d1)) (bisect_vR c st) :=
    quad_simple_sound c.ops mem nu S F I hI c.f c.param c.prec hf _ _ _ _ hzm htop2
  have hsplit : I (xf d1) (yf d1) = I (xf d1) zm + I zm (yf d1) := by
    have h2 : ((2 : ℂ)) ^ (-1 : ℤ) = 1 / 2 := by rw [zpow_neg, zpow_one, one_div]
    rw [hzm_def, h2, mul_one_div]
    exact hI.split_mid (xf d1) (yf d1)
  have hne : d1 ≠ d1 + 1 := by omega
  refine ⟨σ,
    (fun i => if i = d1 + 1 then (if bisect_sw c st then xf d1 else zm)
      else if i = d1 then (if bisect_sw c st then zm else xf d1) else xf i),
    (fun i => if i = d1 + 1 then (if bisect_sw c st then zm else yf d1)
      else if i = d1 then (if bisect_sw c st then yf d1 else zm) else yf i),
    hσ, ?_, ?_⟩
  · intro i hi
    have hi2 : i < d1 + 2 := by
      have h : i < st.depth + 1 := hi
      omega
    rw [bisect_as_eq, bisect_bs_eq, bisect_vs_eq]
    simp only [upd, hd1, Nat.add_sub_cancel]
    by_cases hiT : i = d1 + 1
    · subst hiT
      by_cases hsw : bisect_sw c st
      · simp only [hsw, hne, if_true, if_false, if_pos rfl]
        exact ⟨htop.1, hzm, hvL⟩
      · simp only [hsw, hne, if_true, if_false, if_pos rfl]
        exact ⟨hzm, htop.2.1, hvR⟩
    · by_cases hiD : i = d1
      · subst hiD
        by_cases hsw : bisect_sw c st
        · simp only [hsw, if_neg hne, if_true, if_pos rfl]
          exact ⟨hzm, htop.2.1, hvR⟩
        · simp only [hsw, if_neg hne, if_false, if_pos rfl]
          exact ⟨htop.1, hzm, hvL⟩
      · have hlt : i < d1 := by omega
        simp only [if_neg hiT, if_neg hiD]
        exact hslots i (by omega)
  · show total = σ + ∑ i in Finset.range (st.depth + 1), _
    rw [hd1, Finset.sum_range_succ, Finset.sum_range_succ]
    have hsum2 : ∑ i in Finset.range d1,
        I (if i = d1 + 1 then (if bisect_sw c st then xf d1 else zm)
            else if i = d1 then (if bisect_sw c st then zm else xf d1) else xf i)
          (if i = d1 + 1 then (if bisect_sw c st then zm else yf d1)
            else if i = d1 then (if bisect_sw c st then yf d1 else zm) else yf i)
        = ∑ i in Finset.range d1, I (xf i) (yf i) := by
      refine Finset.sum_congr rfl (fun i hil => ?_)
      have hilt := Finset.mem_range.mp hil
      have h1 : i ≠ d1 + 1 := by omega
      have h2 : i ≠ d1 := by omega
      simp [h1, h2]
    rw [hsum2]
    rw [hsum, hd1, Finset.sum_range_succ]
    by_cases hsw : bisect_sw c st
    · simp only [hsw, hne, if_true, if_false, if_pos rfl, if_neg hne]
      rw [hsplit]
      ring
    · simp only [hsw, hne, if_true, if_false, if_pos rfl, if_neg hne]
      rw [hsplit]
      ring

theorem SInv_step (c : Ctx B M A) (mem : ℂ → B → Prop) (nu : M → ℝ)
    (S : SoundOps c.ops mem nu) (F : ℂ → ℂ) (I : ℂ → ℂ → ℂ)
    (hI : IntegralOf mem F I) (hf : FSound mem F c.f c.param c.prec)
    (hgl : GlSound mem I c.gl) (total : ℂ) (st : IntState B M)
    (hinv : SInv mem I total st) :
    SInv mem I total (step c st) := by
  by_cases h0 : st.depth = 0
  · rwa [step_depth_zero c st h0]
  · by_cases h1 : budgetTrip c st
    · rw [step_budget c st h0 h1]
      exact hinv
    · by_cases h2 : acceptTest c st
      · rw [step_accept c st h0 h1 h2]
        exact SInv_accept c mem nu S I total st h0 hinv
      · by_cases h3 : glTest c st
        · rw [step_gl c st h0 h1 h2 h3]
          exact SInv_gl c mem nu S I hgl total st h0 h3 hinv
        · by_cases h4 : depthTrip c st
          · rw [step_depth_trip c st h0 h1 h2 h3 h4]
            exact hinv
          · rw [step_bisect c st h0 h1 h2 h3 h4]
            exact SInv_bisect c mem nu S F I hI hf total st h0 hinv

theorem SInv_init (c : Ctx B M A) (mem : ℂ → B → Prop) (nu : M → ℝ)
    (S : SoundOps c.ops mem nu) (F : ℂ → ℂ) (I : ℂ → ℂ → ℂ)
    (hI : IntegralOf mem F I) (hf : FSound mem F c.f c.param c.prec)
    (a b : B) (x y : ℂ) (hx : mem x a) (hy : mem y b) (tol : M) :
    SInv mem I (I x y) (init_state c a b tol) := by
  refine ⟨0, fun _ => x, fun _ => y, S.zero_mem, ?_, ?_⟩
  · intro i hi
    have hi0 : i = 0 := by
      have h : i < 1 := hi
      omega
    subst hi0
    refine ⟨?_, ?_, ?_⟩
    · show mem x (if (0:ℕ) = 0 then a else c.ops.zero)
      simpa using hx
    · show mem y (if (0:ℕ) = 0 then b else c.ops.zero)
      simpa using hy
    · show mem (I x y)
        (if (0:ℕ) = 0 then quad_simple c.ops c.f c.param a b c.prec else c.ops.zero)
      simpa using
        quad_simple_sound c.ops mem nu S F I hI c.f c.param c.prec hf a b x y hx hy
  · show I x y = 0 + ∑ _i in Finset.range 1, I x y
    simp

/-- C1: soundness of the integration driver.  For every substrate satisfying
the soundness contract, every true pointwise function `F` with an interval
integral `I` (characterized by midpoint splitting and the mean-value
enclosure), every sound integrand oracle `f` and sound high-order oracle
`gl`, and every choice of true endpoints `x` in the ball `a` and `y` in the
ball `b`, the ball written by `acb_calc_integrate` contains the true value
`I x y` of the integral.  This holds unconditionally on the budget
parameters, i.e. on every exit path (the function always terminates and
returns through the single exit, never signalling failure); budget
exhaustion only forces intervals to be accepted with their existing sound
enclosures. -/
theorem C1_integrate_sound (ops : Ops B M) (mem : ℂ → B → Prop) (nu : M → ℝ)
    (S : SoundOps ops mem nu) (F : ℂ → ℂ) (I : ℂ → ℂ → ℂ)
    (hI : IntegralOf mem F I) (f : B → A → ℤ → ℤ → B) (param : A)
    (gl : B → B → M → ℤ → ℤ → ℤ → ℕ × B) (hgl : GlSound mem I gl)
    (a b : B) (goal : ℤ) (tol : M) (deg_limit eval_limit depth_limit flags prec : ℤ)
    (hf : FSound mem F f param prec) (x y : ℂ) (hx : mem x a) (hy : mem y b) :
    mem (I x y)
      (acb_calc_integrate ops f param gl a b goal tol deg_limit eval_limit
        depth_limit flags prec) := by
  set c : Ctx B M A :=
    mkCtx ops f param gl goal deg_limit eval_limit depth_limit flags prec with hc
  have hinv : ∀ n : ℕ, SInv mem I (I x y) ((step c)^[n] (init_state c a b tol)) := by
    intro n
    induction n with
    | zero => simpa using SInv_init c mem nu S F I hI hf a b x y hx hy tol
    | succ n ih =>
      rw [Function.iterate_succ_apply']
      exact SInv_step c mem nu S F I hI hf hgl (I x y) _ ih
  have hrun : SInv mem I (I x y) (run c (init_state c a b tol)) := hinv _
  obtain ⟨σ, xf, yf, hσ, hsl, hsum⟩ := hrun
  have hdz : (run c (init_state c a b tol)).depth = 0 := run_depth_zero c _
  rw [hdz] at hsum
  simp only [Finset.range_zero, Finset.sum_empty, add_zero] at hsum
  show mem (I x y) (run c (init_state c a b tol)).s
  rw [hsum]
  exact hσ

/- ### Concrete substrate soundness -/

theorem rmem_add (x y : ℝ) (u v : RBall) (hx : rmem x u) (hy : rmem y v) :
    rmem (x + y) (radd u v) := by
  simp only [rmem, radd] at *
  push_cast
  rw [show x + y - ((u.m : ℝ) + (v.m : ℝ)) = (x - u.m) + (y - v.m) by ring]
  exact le_trans (abs_add _ _) (add_le_add hx hy)

theorem rmem_sub (x y : ℝ) (u v : RBall) (hx : rmem x u) (hy : rmem y v) :
    rmem (x - y) (rsub u v) := by
  simp only [rmem, rsub] at *
  push_cast
  rw [show x - y - ((u.m : ℝ) - (v.m : ℝ)) = (x - u.m) + (-(y - v.m)) by ring]
  refine le_trans (abs_add _ _) ?_
  rw [abs_neg]
  exact add_le_add hx hy

theorem rmem_mul (x y : ℝ) (u v : RBall) (hx : rmem x u) (hy : rmem y v) :
    rmem (x * y) (rmul u v) := by
  simp only [rmem, rmul] at *
  push_cast
  have hur : (0:ℝ) ≤ (u.r : ℝ) := le_trans (abs_nonneg _) hx
  rw [show x * y - (u.m : ℝ) * (v.m : ℝ)
      = (u.m : ℝ) * (y - v.m) + (v.m : ℝ) * (x - u.m) + (x - u.m) * (y - v.m) by ring]
  refine le_trans (abs_add _ _) ?_
  refine add_le_add (le_trans (abs_add _ _) (add_le_add ?_ ?_)) ?_
  · rw [abs_mul]
    exact mul_le_mul_of_nonneg_left hy (abs_nonneg _)
  · rw [abs_mul]
    exact mul_le_mul_of_nonneg_left hx (abs_nonneg _)
  · rw [abs_mul]
    exact mul_le_mul hx hy (abs_nonneg _) hur

theorem rmem_scale (x : ℝ) (u : RBall) (e : ℤ) (hx : rmem x u) :
    rmem (x * (2:ℝ) ^ e) (rscale u e) := by
  simp only [rmem, rscale] at *
  push_cast
  have h2 : (0:ℝ) < (2:ℝ) ^ e := zpow_pos (by norm_num) e
  rw [show x * (2:ℝ) ^ e - (u.m : ℝ) * (2:ℝ) ^ e = (x - u.m) * (2:ℝ) ^ e by ring,
    abs_mul, abs_of_pos h2]
  exact mul_le_mul_of_nonneg_right hx (le_of_lt h2)

theorem qmem_zero_qzero : qmem 0 qzero := by
  simp [qmem, rmem, qzero]

/-- The concrete exact rational substrate satisfies the soundness contract. -/
theorem qops_sound : SoundOps qops qmem qnu := by
  refine ⟨qmem_zero_qzero, ?_, ?_, ?_, ?_, ?_, ?_, ?_, ?_, ?_, ?_, ?_⟩
  · intro prec z w u v hz hw
    exact ⟨by rw [Complex.add_re]; exact rmem_add _ _ _ _ hz.1 hw.1,
      by rw [Complex.add_im]; exact rmem_add _ _ _ _ hz.2 hw.2⟩
  · intro prec z w u v hz hw
    exact ⟨by rw [Complex.sub_re]; exact rmem_sub _ _ _ _ hz.1 hw.1,
      by rw [Complex.sub_im]; exact rmem_sub _ _ _ _ hz.2 hw.2⟩
  · intro prec z w u v hz hw
    refine ⟨?_, ?_⟩
    · rw [Complex.mul_re]
      exact rmem_sub _ _ _ _ (rmem_mul _ _ _ _ hz.1 hw.1) (rmem_mul _ _ _ _ hz.2 hw.2)
    · rw [Complex.mul_im]
      exact rmem_add _ _ _ _ (rmem_mul _ _ _ _ hz.1 hw.2) (rmem_mul _ _ _ _ hz.2 hw.1)
  · intro e z u hz
    have hc : ((2:ℂ)) ^ e = (((2:ℝ) ^ e : ℝ) : ℂ) := by push_cast; ring
    refine ⟨?_, ?_⟩
    · have hre : (z * (2:ℂ) ^ e).re = z.re * (2:ℝ) ^ e := by
        rw [hc, mul_comm z _, Complex.re_ofReal_mul, mul_comm]
      rw [hre]
      exact rmem_scale _ _ e hz.1
    · have him : (z * (2:ℂ) ^ e).im = z.im * (2:ℝ) ^ e := by
        rw [hc, mul_comm z _, Complex.im_ofReal_mul, mul_comm]
      rw [him]
      exact rmem_scale _ _ e hz.2
  · intro u h
    show decide (|u.re.m| ≤ u.re.r ∧ |u.im.m| ≤ u.im.r) = true
    rw [decide_eq_true_eq]
    have h1 := h.1
    have h2 := h.2
    simp only [rmem, Complex.zero_re, Complex.zero_im, zero_sub, abs_neg] at h1 h2
    exact ⟨by exact_mod_cast h1, by exact_mod_cast h2⟩
  · intro u z hreal hz
    have h := of_decide_eq_true hreal
    have h2 := hz.2
    simp only [rmem, h.1, h.2, Rat.cast_zero, sub_zero] at h2
    exact abs_nonpos_iff.mp h2
  · intro u z hz him
    refine ⟨hz.1, ?_⟩
    simp [qops, rmem, him]
  · intro z u hz
    have h := hz.1
    have h2 := abs_add (z.re - (u.re.m : ℝ)) ((u.re.m : ℝ))
    rw [sub_add_cancel] at h2
    show |z.re| ≤ ((|u.re.m| + u.re.r : ℚ) : ℝ)
    push_cast
    simp only [rmem] at h
    linarith
  · intro z u hz
    have h := hz.2
    have h2 := abs_add (z.im - (u.im.m : ℝ)) ((u.im.m : ℝ))
    rw [sub_add_cancel] at h2
    show |z.im| ≤ ((|u.im.m| + u.im.r : ℚ) : ℝ)
    push_cast
    simp only [rmem] at h
    linarith
  · intro z u m e hz he
    refine ⟨?_, ?_⟩
    · show rmem ((z + (e:ℂ)).re) ⟨u.re.m, u.re.r + m⟩
      have h := hz.1
      simp only [rmem, Complex.add_re, Complex.ofReal_re] at h ⊢
      push_cast
      have h3 := abs_add (z.re - (u.re.m : ℝ)) e
      rw [show z.re - (u.re.m : ℝ) + e = z.re + e - u.re.m by ring] at h3
      have he' : |e| ≤ (m : ℝ) := he
      linarith
    · show rmem ((z + (e:ℂ)).im) u.im
      have h := hz.2
      simpa [rmem, Complex.add_im, Complex.ofReal_im] using h
  · intro z u m e hz he
    refine ⟨?_, ?_⟩
    · show rmem ((z + (e:ℂ) * Complex.I).re) u.re
      have h := hz.1
      simpa [rmem, Complex.add_re, Complex.mul_re, Complex.I_re, Complex.I_im,
        Complex.ofReal_re, Complex.ofReal_im] using h
    · show rmem ((z + (e:ℂ) * Complex.I).im) ⟨u.im.m, u.im.r + m⟩
      have h := hz.2
      simp only [rmem, Complex.add_im, Complex.mul_im, Complex.I_re, Complex.I_im,
        Complex.ofReal_re, Complex.ofReal_im, mul_one, mul_zero, zero_mul,
        add_zero] at h ⊢
      push_cast
      have h3 := abs_add (z.im - (u.im.m : ℝ)) e
      rw [show z.im - (u.im.m : ℝ) + e = z.im + e - u.im.m by ring] at h3
      have he' : |e| ≤ (m : ℝ) := he
      linarith


/-- The zero function together with the zero interval function satisfies the
integral characterization (used to witness C1). -/
theorem zero_IntegralOf : IntegralOf qmem (fun _ => (0:ℂ)) (fun _ _ => (0:ℂ)) := by
  refine ⟨fun x y => by simp, fun x y u h => ⟨0, ?_, by simp⟩⟩
  simpa using h 0 le_rfl zero_le_one

/-- The always-declining high-order oracle is vacuously sound. -/
theorem gl0_GlSound :
    GlSound qmem (fun _ _ => (0:ℂ))
      (fun (_ _ : QBall) (_ : ℚ) (_ _ _ : ℤ) => ((0:ℕ), qzero)) := by
  intro u v tol dl fl pr h
  simp at h

/-- The constantly-zero integrand oracle is sound for the zero function. -/
theorem f0_FSound :
    FSound qmem (fun _ => (0:ℂ)) (fun _ _ _ _ => qzero) () 64 := by
  intro u z _
  exact qmem_zero_qzero

theorem C1_integrate_sound_witness :
    qmem 0 qzero ∧
    qmem ((fun _ _ => (0:ℂ)) (0:ℂ) (0:ℂ))
      (acb_calc_integrate qops (fun _ _ _ _ => qzero) ()
        (fun _ _ _ _ _ _ => ((0:ℕ), qzero)) qzero qzero 0 0 0 0 0 0 64) :=
  ⟨qmem_zero_qzero,
    C1_integrate_sound qops qmem qnu qops_sound (fun _ => (0:ℂ)) (fun _ _ => (0:ℂ))
      zero_IntegralOf (fun _ _ _ _ => qzero) () (fun _ _ _ _ _ _ => ((0:ℕ), qzero))
      gl0_GlSound qzero qzero 0 0 0 0 0 0 64 f0_FSound 0 0 qmem_zero_qzero
      qmem_zero_qzero⟩

end ArbInt
